import Mathlib

/-!
# Cache replacement simulator (`CacheAlgo.c`): FIFO and LRU engines

A shallow embedding of the two replacement engines of `src/CacheAlgo.c` and
the properties of their hit accounting.

Modelling conventions.

* The C arrays `cq_items`, `arr_items` and `references` are lists; a read
  `a[i]` is `a[i]?` and a write `a[i] = v` is `List.set`.
* `int` values that may be negative (`cq_front`, `cq_rear`, the block
  identifiers, the `-1` empty marker, the `hit` counter) are `Int`; the C
  remainder `%` is the truncating `Int.tmod`.
* `sizeOfCache` and `numberOfReferences` are loop bounds and allocation
  sizes; in the engines they are natural numbers (`main` only starts an
  engine when `sizeOfCache >= 1`, and `numberOfReferences = argc - 4 >= 1`).
  In `main` the parsed `sizeOfCache` and `sizeOfMainMemory` are `Int`, the C
  quotient `/` is the truncating `Int.tdiv`, and an engine is called with
  `sizeOfCache.toNat`.
* No arithmetic of the engines leaves the range of `int` when the inputs are
  in range: every index is below `sizeOfCache` and `hit` never exceeds
  `numberOfReferences`.
* Every `for` loop of the engines and the range check of `main` is a function
  recursing on the number of iterations left; the loop of `main` that fills
  `references` from `argv` is a `List.map`.
* Standard output is the list of lines written; the hit-ratio line carries
  the two integers printed, not the floating-point quotient.
* The C library function `atoi` is a parameter of `main`.
-/

namespace CacheAlgo

/-! ## Shared pieces -/

/-- The membership scan of both engines,
`for (i = 0; i < sizeOfCache; i++) if (items[i] == ref) { ...; break; }`:
the first index at which `ref` is found, if any.  The first argument is the
number of iterations left, the second the loop variable `i`. -/
def scanLoop (items : List Int) (ref : Int) : Nat → Nat → Option Nat
  | 0, _ => none
  | fuel + 1, i =>
    if items[i]? = some ref then some i else scanLoop items ref fuel (i + 1)

/-- The array write `items[i] = v` with an `int` index; an index outside the
array (undefined behaviour in C) leaves the list as it is. -/
def writeAt (items : List Int) (i : Int) (v : Int) : List Int :=
  if 0 ≤ i then items.set i.toNat v else items

/-- What `printf("Cache Hit Ratio = %d/%d = ...")` reports: the hit counter
and `numberOfReferences`. -/
structure Report where
  hit : Int
  total : Int
deriving DecidableEq, Repr

/-! ## FIFO engine -/

/-- The globals of the FIFO engine. -/
structure FifoState where
  cq_items : List Int
  cq_size : Int
  cq_front : Int
  cq_rear : Int
  hit : Int
deriving DecidableEq, Repr

/-- The function `cq_dequeue`. -/
def cq_dequeue (s : FifoState) : FifoState :=
  if s.cq_front = s.cq_rear then
    { s with cq_front := -1, cq_rear := -1 }
  else
    { s with cq_front := Int.tmod (s.cq_front + 1) s.cq_size }

/-- The function `cq_enqueue`. -/
def cq_enqueue (s : FifoState) (element : Int) : FifoState :=
  let s1 :=
    if (s.cq_front = 0 ∧ s.cq_rear = s.cq_size - 1) ∨ s.cq_front = s.cq_rear + 1 then
      cq_dequeue s
    else s
  let s2 := if s1.cq_front = -1 then { s1 with cq_front := 0 } else s1
  let s3 := { s2 with cq_rear := Int.tmod (s2.cq_rear + 1) s2.cq_size }
  { s3 with cq_items := writeAt s3.cq_items s3.cq_rear element }

/-- The body of the reference loop of `runFIFO` for one reference. -/
def fifoStep (sizeOfCache : Nat) (s : FifoState) (ref : Int) : FifoState :=
  match scanLoop s.cq_items ref sizeOfCache 0 with
  | some _ => { s with hit := s.hit + 1 }
  | none => cq_enqueue s ref

/-- The reference loop of `runFIFO`,
`for (j = 0; j < numberOfReferences; j++) { ref = references[j]; ... }`.
A read past the end of `references` (which `main` never causes) yields `0`. -/
def fifoLoop (sizeOfCache : Nat) (references : List Int) :
    Nat → Nat → FifoState → FifoState
  | 0, _, s => s
  | fuel + 1, j, s =>
    fifoLoop sizeOfCache references fuel (j + 1)
      (fifoStep sizeOfCache s (references.getD j 0))

/-- The state set up by the first lines of `runFIFO`; nothing of the previous
values of the globals survives. -/
def fifoReset (sizeOfCache : Nat) (_prev : FifoState) : FifoState :=
  { cq_front := -1
    cq_rear := -1
    cq_size := sizeOfCache
    cq_items := List.replicate sizeOfCache (-1)
    hit := 0 }

/-- The zero-initialised globals of a fresh process. -/
def fifoGlobals : FifoState :=
  { cq_items := [], cq_size := 0, cq_front := 0, cq_rear := 0, hit := 0 }

/-- The function `runFIFO` started with the globals in state `prev`: the
final state of the globals. -/
def runFIFOFrom (prev : FifoState) (sizeOfCache numberOfReferences : Nat)
    (references : List Int) : FifoState :=
  fifoLoop sizeOfCache references numberOfReferences 0 (fifoReset sizeOfCache prev)

/-- The function `runFIFO` as `main` calls it.  With `numberOfReferences = k`
not above the length of `references` this is the state of the globals after
the first `k` iterations of the reference loop. -/
def runFIFO (sizeOfCache numberOfReferences : Nat) (references : List Int) : FifoState :=
  runFIFOFrom fifoGlobals sizeOfCache numberOfReferences references

/-- The line printed by `runFIFO`. -/
def reportFIFO (sizeOfCache numberOfReferences : Nat) (references : List Int) : Report :=
  { hit := (runFIFO sizeOfCache numberOfReferences references).hit
    total := numberOfReferences }

/-! ## LRU engine -/

/-- The globals of the LRU engine. -/
structure LruState where
  arr_items : List Int
  arr_size : Int
  hit : Int
deriving DecidableEq, Repr

/-- The shifting loop `for (k = i; k > 0; k--) items[k] = items[k - 1];`
started at `k = i`.  The read `items[k - 1]` is always inside the array. -/
def shiftLoop (items : List Int) : Nat → List Int
  | 0 => items
  | k + 1 => shiftLoop (items.set (k + 1) (items.getD k (-1))) k

/-- The body of the reference loop of `runLRU` for one reference. -/
def lruStep (sizeOfCache : Nat) (s : LruState) (ref : Int) : LruState :=
  match scanLoop s.arr_items ref sizeOfCache 0 with
  | some i =>
    { s with hit := s.hit + 1, arr_items := (shiftLoop s.arr_items i).set 0 ref }
  | none =>
    { s with arr_items := (shiftLoop s.arr_items (sizeOfCache - 1)).set 0 ref }

/-- The reference loop of `runLRU`. -/
def lruLoop (sizeOfCache : Nat) (references : List Int) :
    Nat → Nat → LruState → LruState
  | 0, _, s => s
  | fuel + 1, j, s =>
    lruLoop sizeOfCache references fuel (j + 1)
      (lruStep sizeOfCache s (references.getD j 0))

/-- The state set up by the first lines of `runLRU`. -/
def lruReset (sizeOfCache : Nat) (_prev : LruState) : LruState :=
  { arr_size := sizeOfCache
    arr_items := List.replicate sizeOfCache (-1)
    hit := 0 }

/-- The zero-initialised globals of a fresh process. -/
def lruGlobals : LruState :=
  { arr_items := [], arr_size := 0, hit := 0 }

/-- The function `runLRU` started with the globals in state `prev`. -/
def runLRUFrom (prev : LruState) (sizeOfCache numberOfReferences : Nat)
    (references : List Int) : LruState :=
  lruLoop sizeOfCache references numberOfReferences 0 (lruReset sizeOfCache prev)

/-- The function `runLRU` as `main` calls it.  With `numberOfReferences = k`
not above the length of `references` this is the state of the globals after
the first `k` iterations of the reference loop. -/
def runLRU (sizeOfCache numberOfReferences : Nat) (references : List Int) : LruState :=
  runLRUFrom lruGlobals sizeOfCache numberOfReferences references

/-- The line printed by `runLRU`. -/
def reportLRU (sizeOfCache numberOfReferences : Nat) (references : List Int) : Report :=
  { hit := (runLRU sizeOfCache numberOfReferences references).hit
    total := numberOfReferences }

/-- The reference stream of the two sample runs in the header comment. -/
def sampleRefs : List Int :=
  [1, 2, 3, 1, 4, 2, 12, 5, 3, 6, 8, 11, 9, 12, 10, 7, 1, 9, 5, 7]


/-! ## Reference models -/

/-- One step of the reference FIFO model: a queue (front first) and a hit
count.  A reference in the queue is a hit and leaves the queue as it is; a
reference not in the queue is appended at the rear, after the front element
is removed when the queue already holds `cap` elements. -/
def fifoModelStep (cap : Nat) (st : List Int × Int) (r : Int) : List Int × Int :=
  if r ∈ st.1 then (st.1, st.2 + 1)
  else ((if st.1.length = cap then st.1.tail else st.1) ++ [r], st.2)

/-- The reference FIFO model run over a stream from the empty queue. -/
def fifoModel (cap : Nat) (refs : List Int) : List Int × Int :=
  refs.foldl (fifoModelStep cap) ([], 0)

/-- The link between the globals of the FIFO engine and a state of the
reference model: either the buffer is still filling (the queue is a prefix of
the array, the rest holds the empty marker) or it is full and the queue is
the array read circularly from `cq_front`. -/
def FifoRel (n : Nat) (s : FifoState) (m : List Int × Int) : Prop :=
  s.cq_size = n ∧ s.hit = m.2 ∧ (∀ x ∈ m.1, (0 : Int) ≤ x) ∧
  ((m.1.length < n ∧ s.cq_items = m.1 ++ List.replicate (n - m.1.length) (-1) ∧
      s.cq_front = (if m.1 = [] then -1 else 0) ∧ s.cq_rear = (m.1.length : Int) - 1) ∨
   (∃ A B : List Int, B ≠ [] ∧ s.cq_items = A ++ B ∧ m.1 = B ++ A ∧ (A ++ B).length = n ∧
      s.cq_front = (A.length : Int) ∧
      s.cq_rear = (if A = [] then (n : Int) - 1 else (A.length : Int) - 1)))

/-- One step of the reference LRU model: a list ordered from most to least
recently used and a hit count.  A reference found at position `i` is a hit
and moves to the front (the entries before `i` shift back by one, the entries
after `i` keep their place); a reference not found is put at the front, after
the last entry is dropped when the list already holds `cap` entries. -/
def lruModelStep (cap : Nat) (st : List Int × Int) (r : Int) : List Int × Int :=
  if r ∈ st.1 then
    (r :: (st.1.take (st.1.indexOf r) ++ st.1.drop (st.1.indexOf r + 1)), st.2 + 1)
  else
    (r :: (if st.1.length = cap then st.1.dropLast else st.1), st.2)

/-- The reference LRU model run over a stream from the empty list. -/
def lruModel (cap : Nat) (refs : List Int) : List Int × Int :=
  refs.foldl (lruModelStep cap) ([], 0)

/-- The link between the globals of the LRU engine and a state of the
reference model: the list is a prefix of the array and the rest of the array
holds the empty marker. -/
def LruRel (n : Nat) (s : LruState) (m : List Int × Int) : Prop :=
  s.hit = m.2 ∧ (∀ x ∈ m.1, (0 : Int) ≤ x) ∧ m.1.length ≤ n ∧
    s.arr_items = m.1 ++ List.replicate (n - m.1.length) (-1)

/-! ## Notions used to state the invariants -/

/-- The index of the last occurrence of `x` in a stream, if `x` occurs. -/
def lastOcc (x : Int) : List Int → Option Nat
  | [] => none
  | y :: ys =>
    match lastOcc x ys with
    | some j => some (j + 1)
    | none => if y = x then some 0 else none

/-- The identifier `a` was referenced more recently than `b` in the stream
`pre`: both occur and the last occurrence of `a` is later than that of `b`. -/
def MoreRecent (pre : List Int) (a b : Int) : Prop :=
  ∃ p q, lastOcc a pre = some p ∧ lastOcc b pre = some q ∧ q < p

/-- The distinct identifiers of a stream, most recently referenced first:
each reference is put in front and its older copy is struck out. -/
def mruOrder (pre : List Int) : List Int :=
  pre.foldl (fun L r => r :: L.filter (fun y => y != r)) []

/-- The number of resident identifiers of the FIFO engine read off the queue
indices: the circular span from `cq_front` to `cq_rear`, and `0` for the empty
queue (`cq_front = -1`). -/
def residentSpan (s : FifoState) : Int :=
  if s.cq_front = -1 then 0
  else Int.tmod (s.cq_rear - s.cq_front + s.cq_size) s.cq_size + 1

/-! ## The state reset of `runFIFO`, assignment by assignment -/

/-- The fill loop `for (i = 0; i < sizeOfCache; i++) cq_items[i] = -1;`.  The
first argument is the number of iterations left, the second the loop
variable `i`. -/
def fillLoop (items : List Int) : Nat → Nat → List Int
  | 0, _ => items
  | fuel + 1, i => fillLoop (items.set i (-1)) fuel (i + 1)

/-- The first lines of `runFIFO` run on the globals `prev` left by whatever
ran before; `fresh` is the block returned by `malloc`, `sizeOfCache` slots of
arbitrary content. -/
def fifoResetOn (sizeOfCache : Nat) (prev : FifoState) (fresh : List Int) : FifoState :=
  let s1 := { prev with cq_front := -1 }
  let s2 := { s1 with cq_rear := -1 }
  let s3 := { s2 with cq_size := sizeOfCache }
  let s4 := { s3 with cq_items := fresh }
  let s5 := { s4 with cq_items := fillLoop s4.cq_items sizeOfCache 0 }
  { s5 with hit := 0 }

/-- The function `runFIFO` run on the globals `prev` with the `malloc` block
`fresh`. -/
def runFIFOOn (prev : FifoState) (fresh : List Int) (sizeOfCache numberOfReferences : Nat)
    (references : List Int) : FifoState :=
  fifoLoop sizeOfCache references numberOfReferences 0 (fifoResetOn sizeOfCache prev fresh)

/-- The index shape of the circular queue between two references: empty
(`-1`, `-1`), or front at `0` with the rear inside the array, or the rear
just behind a front that has moved on. -/
def FifoShape (n : Nat) (s : FifoState) : Prop :=
  s.cq_size = n ∧ s.cq_items.length = n ∧
    ((s.cq_front = -1 ∧ s.cq_rear = -1) ∨
     (s.cq_front = 0 ∧ 0 ≤ s.cq_rear ∧ s.cq_rear < n) ∨
     (1 ≤ s.cq_front ∧ s.cq_front < n ∧ s.cq_rear = s.cq_front - 1))

/-! ## The function `main` -/

/-- A line written to standard output: one of the five error messages, or the
`Cache Hit Ratio` line of an engine. -/
inductive Line where
  | insufficientArguments
  | invalidMemorySize
  | invalidCacheSize
  | invalidReference
  | invalidPolicy
  | hitRatio (r : Report)
deriving DecidableEq, Repr

/-- The value of `*s` for an argument string `s`: its first character, the
terminating zero for the empty string. -/
def firstChar (s : String) : Char :=
  s.data.headD (Char.ofNat 0)

/-- The range check of `main`,
`for (i = 0; i < referenceLength; i++) if (references[i] >= sizeOfMainMemory || references[i] < 0) { referencesAreValid = false; break; }`:
the final value of `referencesAreValid`. -/
def referencesAreValid (references : List Int) (sizeOfMainMemory : Int) : Nat → Nat → Bool
  | 0, _ => true
  | fuel + 1, i =>
    if references.getD i 0 ≥ sizeOfMainMemory ∨ references.getD i 0 < 0 then false
    else referencesAreValid references sizeOfMainMemory fuel (i + 1)

/-- The part of `main` after the arguments are stored in the globals: the
nested validation and the `switch` on `algoType`.  The result is what is
written to standard output. -/
def validateAndRun (numberOfReferences : Nat) (sizeOfCache sizeOfMainMemory : Int)
    (algoType : Char) (references : List Int) : List Line :=
  if sizeOfMainMemory ≠ 32 ∧ sizeOfMainMemory ≠ 64 ∧ sizeOfMainMemory ≠ 128 then
    [Line.invalidMemorySize]
  else if sizeOfCache > Int.tdiv sizeOfMainMemory 4 ∨ sizeOfCache < 1 then
    [Line.invalidCacheSize]
  else if referencesAreValid references sizeOfMainMemory numberOfReferences 0 = false then
    [Line.invalidReference]
  else if algoType = 'F' ∨ algoType = 'f' then
    [Line.hitRatio (reportFIFO sizeOfCache.toNat numberOfReferences references)]
  else if algoType = 'L' ∨ algoType = 'l' then
    [Line.hitRatio (reportLRU sizeOfCache.toNat numberOfReferences references)]
  else
    [Line.invalidPolicy]

/-- The function `main` on the argument vector `argv` (`argc` is its length,
`argv[0]` the program name).  The C library function `atoi` is a parameter.
The result is what is written to standard output. -/
def main (atoi : String → Int) (argv : List String) : List Line :=
  if argv.length < 5 then
    [Line.insufficientArguments]
  else
    validateAndRun (argv.length - 4) (atoi (argv.getD 1 "")) (atoi (argv.getD 2 ""))
      (firstChar (argv.getD 3 "")) ((argv.drop 4).map atoi)

/-- The digits at the head of a character list read as a decimal number,
continuing the value `acc`. -/
def decimalValue : List Char → Int → Int
  | [], acc => acc
  | c :: cs, acc =>
    if c.isDigit then decimalValue cs (acc * 10 + ((c.toNat : Int) - 48)) else acc

/-- A reading of `atoi` used for the concrete invocations: an optional sign,
then decimal digits up to the first other character; `0` without digits. -/
def atoiDecimal (s : String) : Int :=
  match s.data with
  | '-' :: cs => - decimalValue cs 0
  | '+' :: cs => decimalValue cs 0
  | cs => decimalValue cs 0

/-! ## Loops as folds -/

theorem scanLoop_append (ref : Int) (suf : List Int) :
    ∀ pre : List Int, scanLoop (pre ++ suf) ref suf.length pre.length =
      if ref ∈ suf then some (pre.length + suf.indexOf ref) else none := by
  induction suf with
  | nil => intro pre; simp [scanLoop]
  | cons a t ih =>
    intro pre
    have hget : (pre ++ a :: t)[pre.length]? = some a := by
      rw [List.getElem?_append_right (le_refl _)]; simp
    by_cases ha : a = ref
    · subst ha
      simp [scanLoop, hget]
    · have h1 := ih (pre ++ [a])
      simp only [List.append_assoc, List.singleton_append, List.length_append,
        List.length_singleton] at h1
      have hne : ¬ ref = a := fun h => ha h.symm
      simp only [List.length_cons, scanLoop, hget, Option.some.injEq, ha, if_false, h1,
        List.mem_cons, hne, false_or]
      by_cases hm : ref ∈ t
      · simp [hm, List.indexOf_cons_ne _ ha, Nat.add_assoc, Nat.add_comm 1]
      · simp [hm]

theorem scanLoop_full (items : List Int) (ref : Int) :
    scanLoop items ref items.length 0 =
      if ref ∈ items then some (items.indexOf ref) else none := by
  have h := scanLoop_append ref items []
  simpa using h

theorem fifoLoop_eq_foldl (n : Nat) (refs : List Int) :
    ∀ (fuel j : Nat) (s : FifoState), j + fuel ≤ refs.length →
      fifoLoop n refs fuel j s = ((refs.drop j).take fuel).foldl (fifoStep n) s := by
  intro fuel
  induction fuel with
  | zero => intro j s _; simp [fifoLoop]
  | succ k ih =>
    intro j s h
    have hj : j < refs.length := by omega
    have hd : refs.getD j 0 = refs[j] := by
      simp [List.getD_eq_getElem?_getD, List.getElem?_eq_getElem hj]
    rw [fifoLoop, ih (j + 1) _ (by omega), List.drop_eq_getElem_cons hj, hd,
      List.take_succ_cons, List.foldl_cons]

theorem lruLoop_eq_foldl (n : Nat) (refs : List Int) :
    ∀ (fuel j : Nat) (s : LruState), j + fuel ≤ refs.length →
      lruLoop n refs fuel j s = ((refs.drop j).take fuel).foldl (lruStep n) s := by
  intro fuel
  induction fuel with
  | zero => intro j s _; simp [lruLoop]
  | succ k ih =>
    intro j s h
    have hj : j < refs.length := by omega
    have hd : refs.getD j 0 = refs[j] := by
      simp [List.getD_eq_getElem?_getD, List.getElem?_eq_getElem hj]
    rw [lruLoop, ih (j + 1) _ (by omega), List.drop_eq_getElem_cons hj, hd,
      List.take_succ_cons, List.foldl_cons]

theorem runFIFOFrom_eq_foldl (prev : FifoState) (n k : Nat) (refs : List Int)
    (hk : k ≤ refs.length) :
    runFIFOFrom prev n k refs = (refs.take k).foldl (fifoStep n) (fifoReset n prev) := by
  unfold runFIFOFrom
  rw [fifoLoop_eq_foldl n refs k 0 _ (by omega)]
  simp

theorem runLRUFrom_eq_foldl (prev : LruState) (n k : Nat) (refs : List Int)
    (hk : k ≤ refs.length) :
    runLRUFrom prev n k refs = (refs.take k).foldl (lruStep n) (lruReset n prev) := by
  unfold runLRUFrom
  rw [lruLoop_eq_foldl n refs k 0 _ (by omega)]
  simp

theorem tmod_succ_of_lt {x n : Int} (h0 : 0 ≤ x + 1) (h : x + 1 < n) :
    Int.tmod (x + 1) n = x + 1 := by
  rw [Int.tmod_eq_emod h0 (by omega)]
  exact Int.emod_eq_of_lt h0 h

theorem tmod_succ_of_eq {x n : Int} (h0 : 0 ≤ n) (h : x + 1 = n) :
    Int.tmod (x + 1) n = 0 := by
  rw [h, Int.tmod_eq_emod h0 h0]
  exact Int.emod_self

/-! ## The FIFO engine against the reference model -/

theorem set_append_length (A : List Int) (b r : Int) (B : List Int) :
    (A ++ b :: B).set A.length r = A ++ r :: B := by
  induction A with
  | nil => rfl
  | cons a A ih => simp [ih]

theorem writeAt_append_length (A : List Int) (b r : Int) (B : List Int) :
    writeAt (A ++ b :: B) (A.length : Int) r = A ++ r :: B := by
  unfold writeAt
  rw [if_pos (Int.natCast_nonneg _), Int.toNat_natCast, set_append_length]

theorem cq_enqueue_fill (n : Nat) (q : List Int) (hit r : Int) (hq : q.length < n) :
    cq_enqueue
      { cq_items := q ++ List.replicate (n - q.length) (-1)
        cq_size := n
        cq_front := if q = [] then -1 else 0
        cq_rear := (q.length : Int) - 1
        hit := hit } r =
      { cq_items := q ++ r :: List.replicate (n - q.length - 1) (-1)
        cq_size := n
        cq_front := 0
        cq_rear := q.length
        hit := hit } := by
  have hrep : List.replicate (n - q.length) (-1 : Int) =
      -1 :: List.replicate (n - q.length - 1) (-1) := by
    rw [← List.replicate_succ]; congr 1; omega
  have hrear : Int.tmod ((q.length : Int) - 1 + 1) (n : Int) = q.length :=
    by
      have := tmod_succ_of_lt (x := (q.length : Int) - 1) (n := n) (by omega) (by omega)
      simpa using this
  have hc : ¬ (((if q = [] then (-1 : Int) else 0) = 0 ∧ (q.length : Int) - 1 = (n : Int) - 1) ∨
      (if q = [] then (-1 : Int) else 0) = (q.length : Int) - 1 + 1) := by
    by_cases hq0 : q = []
    · subst hq0; simp
    · have : 0 < q.length := List.length_pos.mpr hq0
      simp only [hq0, if_false]
      omega
  unfold cq_enqueue
  simp only [hc, if_false]
  by_cases hq0 : q = []
  · subst hq0
    simp only [if_true, hrear]
    rw [hrep]
    have := writeAt_append_length [] (-1) r (List.replicate (n - 0 - 1) (-1))
    simpa using this
  · simp only [hq0, if_false, hrear]
    have h0 : ¬ ((0 : Int) = -1) := by decide
    simp only [h0, if_false, hrep, hrear, writeAt_append_length]

theorem cq_enqueue_full (n : Nat) (A B : List Int) (b hit r : Int)
    (hlen : (A ++ b :: B).length = n) :
    ∃ f' : Int,
    cq_enqueue
      { cq_items := A ++ b :: B
        cq_size := n
        cq_front := A.length
        cq_rear := if A = [] then (n : Int) - 1 else (A.length : Int) - 1
        hit := hit } r =
      { cq_items := A ++ r :: B
        cq_size := n
        cq_front := f'
        cq_rear := A.length
        hit := hit } ∧ f' = if B = [] then 0 else (A.length : Int) + 1 := by
  simp only [List.length_append, List.length_cons] at hlen
  have hc : (((A.length : Int) = 0 ∧
      (if A = [] then (n : Int) - 1 else (A.length : Int) - 1) = (n : Int) - 1) ∨
      (A.length : Int) = (if A = [] then (n : Int) - 1 else (A.length : Int) - 1) + 1) := by
    by_cases hA : A = []
    · subst hA; simp
    · simp [hA]
  by_cases hA : A = []
  · subst hA
    by_cases hB : B = []
    · -- one slot: the queue empties and refills
      subst hB
      simp only [List.length_nil, zero_add] at hlen
      subst hlen
      refine ⟨0, ?_, by simp⟩
      simp [cq_enqueue, cq_dequeue, writeAt, Int.tmod]
    · have hBl : 0 < B.length := List.length_pos.mpr hB
      have hf : Int.tmod ((0 : Int) + 1) (n : Int) = 0 + 1 :=
        tmod_succ_of_lt (by omega) (by simp at hlen ⊢; omega)
      have hr : Int.tmod (((n : Int) - 1) + 1) (n : Int) = 0 :=
        tmod_succ_of_eq (by omega) (by omega)
      have hne : ¬ ((0 : Int) = (n : Int) - 1) := by simp at hlen; omega
      refine ⟨1, ?_, by simp [hB]⟩
      simp only [cq_enqueue, cq_dequeue, List.length_nil, Nat.cast_zero, if_true, true_and,
        true_or, hne, if_false, hf, hr, List.nil_append]
      simp [writeAt]
  · have hAl : 0 < A.length := List.length_pos.mpr hA
    have hne : ¬ ((A.length : Int) = (A.length : Int) - 1) := by omega
    have hr : Int.tmod (((A.length : Int) - 1) + 1) (n : Int) = A.length := by
      have := tmod_succ_of_lt (x := (A.length : Int) - 1) (n := n) (by omega) (by omega)
      simpa using this
    have hr' : Int.tmod (A.length : Int) (n : Int) = A.length := by simpa using hr
    by_cases hB : B = []
    · subst hB
      have hf : Int.tmod ((A.length : Int) + 1) (n : Int) = 0 :=
        tmod_succ_of_eq (by omega) (by simp at hlen; omega)
      refine ⟨0, ?_, by simp⟩
      simp only [cq_enqueue, cq_dequeue, hA, if_false, hne, hf, hr]
      simp [writeAt_append_length, hr']
    · have hBl : 0 < B.length := List.length_pos.mpr hB
      have hf : Int.tmod ((A.length : Int) + 1) (n : Int) = (A.length : Int) + 1 :=
        tmod_succ_of_lt (by omega) (by omega)
      have hne1 : ¬ ((A.length : Int) + 1 = -1) := by omega
      refine ⟨(A.length : Int) + 1, ?_, by simp [hB]⟩
      simp only [cq_enqueue, cq_dequeue, hA, if_false, hne, hf, hr]
      simp [writeAt_append_length, hne1, hr']

theorem fifoRel_length {n : Nat} {s : FifoState} {m : List Int × Int} (h : FifoRel n s m) :
    s.cq_items.length = n := by
  obtain ⟨_, _, _, hA | ⟨A, B, _, hi, _, hl, _⟩⟩ := h
  · rw [hA.2.1]; simp; omega
  · rw [hi]; exact hl

theorem fifoRel_mem {n : Nat} {s : FifoState} {m : List Int × Int} (h : FifoRel n s m)
    {r : Int} (hr : 0 ≤ r) : r ∈ s.cq_items ↔ r ∈ m.1 := by
  obtain ⟨_, _, _, hA | ⟨A, B, _, hi, hq, _, _⟩⟩ := h
  · rw [hA.2.1, List.mem_append, List.mem_replicate]
    constructor
    · rintro (h | ⟨_, h⟩)
      · exact h
      · omega
    · exact fun h => Or.inl h
  · rw [hi, hq, List.mem_append, List.mem_append, or_comm]

theorem fifoRel_scan {n : Nat} {s : FifoState} {m : List Int × Int} (h : FifoRel n s m)
    {r : Int} (hr : 0 ≤ r) :
    (scanLoop s.cq_items r n 0).isSome = decide (r ∈ m.1) := by
  have h1 := scanLoop_full s.cq_items r
  rw [fifoRel_length h] at h1
  rw [h1]
  by_cases hm : r ∈ m.1
  · simp [hm, (fifoRel_mem h hr).mpr hm]
  · have : r ∉ s.cq_items := fun h' => hm ((fifoRel_mem h hr).mp h')
    simp [hm, this]

theorem fifoRel_init (n : Nat) (hn : 1 ≤ n) (prev : FifoState) :
    FifoRel n (fifoReset n prev) ([], 0) := by
  refine ⟨rfl, rfl, by simp, Or.inl ?_⟩
  simp [fifoReset]; omega

theorem fifoRel_step (n : Nat) (s : FifoState) (m : List Int × Int) (r : Int)
    (h : FifoRel n s m) (hr : 0 ≤ r) :
    FifoRel n (fifoStep n s r) (fifoModelStep n m r) := by
  have hscan := fifoRel_scan h hr
  obtain ⟨items, size, front, rear, hit⟩ := s
  obtain ⟨q, hits⟩ := m
  by_cases hm : r ∈ q
  · -- hit
    have hs : ∃ i, scanLoop items r n 0 = some i := by
      simpa [hm, Option.isSome_iff_exists] using hscan
    obtain ⟨i, hi⟩ := hs
    obtain ⟨h1, h2, h3, h4⟩ := h
    simp only at h1 h2 h3 h4 hi
    simp only [fifoStep, hi, fifoModelStep, hm, if_true]
    exact ⟨h1, by simp [h2], h3, h4⟩
  · -- miss
    have hs : scanLoop items r n 0 = none := by
      simpa [hm] using hscan
    have hnn : ∀ x ∈ (if q.length = n then q.tail else q) ++ [r], (0 : Int) ≤ x := by
      intro x hx
      rw [List.mem_append] at hx
      rcases hx with hx | hx
      · apply h.2.2.1
        split at hx
        · exact List.mem_of_mem_tail hx
        · exact hx
      · simp at hx; omega
    obtain ⟨h1, h2, h3, hA | ⟨A, B, hB, hi, hq, hl, hf, hre⟩⟩ := h
    · -- still filling
      obtain ⟨hlt, hi, hf, hre⟩ := hA
      simp only at h1 h2 hlt hi hf hre
      subst h1 h2 hi hf hre
      have hne : q.length ≠ n := by omega
      simp only [fifoStep, hs, fifoModelStep, hm, if_false, hne]
      rw [cq_enqueue_fill n q _ r hlt]
      refine ⟨rfl, rfl, by simpa [hne] using hnn, ?_⟩
      by_cases hfull : q.length + 1 = n
      · right
        refine ⟨[], q ++ [r], by simp, ?_, by simp, by simp [hfull], by simp, ?_⟩
        · have : n - q.length - 1 = 0 := by omega
          simp [this]
        · simp; omega
      · left
        refine ⟨by simp; omega, ?_, by simp, by simp⟩
        simp only [List.append_assoc, List.singleton_append, List.length_append,
          List.length_singleton]
        rw [Nat.sub_sub]
    · -- full
      simp only at h1 h2 hi hq hf hre
      subst h1 h2 hi hq hf hre
      have hqn : (B ++ A).length = n := by
        rw [List.length_append, Nat.add_comm, ← List.length_append]; exact hl
      obtain ⟨b, B', rfl⟩ := List.exists_cons_of_ne_nil hB
      simp only [fifoStep, hs, fifoModelStep, hm, if_false, hqn, if_true]
      obtain ⟨f', he, hf'⟩ := cq_enqueue_full n A B' b hit r hl
      rw [he]
      rw [if_pos hqn] at hnn
      refine ⟨rfl, rfl, hnn, Or.inr ?_⟩
      by_cases hB' : B' = []
      · subst hB'
        refine ⟨[], A ++ [r], by simp, by simp, by simp, ?_, by simp [hf'], ?_⟩
        · simpa using hl
        · simp at hl ⊢; omega
      · refine ⟨A ++ [r], B', hB', by simp, by simp, ?_, by simp [hf', hB'], by simp⟩
        simpa [Nat.add_comm, Nat.add_left_comm, Nat.add_assoc] using hl

theorem fifoRel_foldl (n : Nat) (refs : List Int) :
    ∀ (s : FifoState) (m : List Int × Int), FifoRel n s m → (∀ r ∈ refs, (0 : Int) ≤ r) →
      FifoRel n (refs.foldl (fifoStep n) s) (refs.foldl (fifoModelStep n) m) := by
  induction refs with
  | nil => intro s m h _; exact h
  | cons r rest ih =>
    intro s m h hr
    simp only [List.foldl_cons]
    exact ih _ _ (fifoRel_step n s m r h (hr r (List.mem_cons_self _ _)))
      (fun x hx => hr x (List.mem_cons_of_mem _ hx))

theorem fifoRel_run (n k : Nat) (hn : 1 ≤ n) (prev : FifoState) (refs : List Int)
    (hk : k ≤ refs.length) (hr : ∀ r ∈ refs, (0 : Int) ≤ r) :
    FifoRel n (runFIFOFrom prev n k refs) (fifoModel n (refs.take k)) := by
  rw [runFIFOFrom_eq_foldl prev n k refs hk]
  exact fifoRel_foldl n _ _ _ (fifoRel_init n hn prev)
    (fun r h => hr r (List.mem_of_mem_take h))

/-! ## The LRU engine against the reference model -/

theorem shiftLoop_set_zero (r : Int) (P : List Int) :
    ∀ (x : Int) (S : List Int),
      (shiftLoop (P ++ x :: S) P.length).set 0 r = r :: (P ++ S) := by
  induction P using List.reverseRecOn with
  | nil => intro x S; simp [shiftLoop]
  | append_singleton P y ih =>
    intro x S
    have hget : (P ++ [y] ++ x :: S).getD P.length (-1) = y := by
      rw [List.getD_eq_getElem?_getD, List.append_assoc,
        List.getElem?_append_right (le_refl _)]
      simp
    have hset : (P ++ [y] ++ x :: S).set (P.length + 1) y = P ++ y :: y :: S := by
      simp
    rw [List.length_append, List.length_singleton, shiftLoop, hget, hset, ih y (y :: S)]
    simp

theorem shiftLoop_set_zero_of_lt (r : Int) (items : List Int) (k : Nat)
    (hk : k < items.length) :
    (shiftLoop items k).set 0 r = r :: (items.take k ++ items.drop (k + 1)) := by
  have h1 : items = items.take k ++ items[k] :: items.drop (k + 1) := by
    rw [← List.drop_eq_getElem_cons hk, List.take_append_drop]
  have h2 : (items.take k).length = k := by
    rw [List.length_take]; omega
  have h3 := shiftLoop_set_zero r (items.take k) items[k] (items.drop (k + 1))
  rw [← h1, h2] at h3
  exact h3

theorem lruRel_length {n : Nat} {s : LruState} {m : List Int × Int} (h : LruRel n s m) :
    s.arr_items.length = n := by
  obtain ⟨_, _, hl, hi⟩ := h
  rw [hi]; simp; omega

theorem lruRel_mem {n : Nat} {s : LruState} {m : List Int × Int} (h : LruRel n s m)
    {r : Int} (hr : 0 ≤ r) : r ∈ s.arr_items ↔ r ∈ m.1 := by
  obtain ⟨_, _, _, hi⟩ := h
  rw [hi, List.mem_append, List.mem_replicate]
  constructor
  · rintro (h | ⟨_, h⟩)
    · exact h
    · omega
  · exact fun h => Or.inl h

theorem lruRel_scan {n : Nat} {s : LruState} {m : List Int × Int} (h : LruRel n s m)
    {r : Int} (hr : 0 ≤ r) :
    scanLoop s.arr_items r n 0 = if r ∈ m.1 then some (m.1.indexOf r) else none := by
  have h1 := scanLoop_full s.arr_items r
  rw [lruRel_length h] at h1
  rw [h1]
  by_cases hm : r ∈ m.1
  · rw [if_pos hm, if_pos ((lruRel_mem h hr).mpr hm), h.2.2.2,
      List.indexOf_append_of_mem hm]
  · have : r ∉ s.arr_items := fun h' => hm ((lruRel_mem h hr).mp h')
    rw [if_neg hm, if_neg this]

theorem lruRel_init (n : Nat) (prev : LruState) : LruRel n (lruReset n prev) ([], 0) := by
  refine ⟨rfl, by simp, by simp, ?_⟩
  simp [lruReset]

theorem lruRel_step (n : Nat) (hn : 1 ≤ n) (s : LruState) (m : List Int × Int) (r : Int)
    (h : LruRel n s m) (hr : 0 ≤ r) :
    LruRel n (lruStep n s r) (lruModelStep n m r) := by
  have hscan := lruRel_scan h hr
  have hlen := lruRel_length h
  obtain ⟨items, size, hit⟩ := s
  obtain ⟨l, hits⟩ := m
  obtain ⟨h1, h2, h3, h4⟩ := h
  simp only at h1 h2 h3 h4 hscan hlen
  subst h1
  by_cases hm : r ∈ l
  · -- hit at position `indexOf r l`
    have hi : l.indexOf r < l.length := List.indexOf_lt_length.mpr hm
    rw [if_pos hm] at hscan
    simp only [lruStep, hscan, lruModelStep, hm, if_true]
    rw [shiftLoop_set_zero_of_lt r items _ (by omega)]
    refine ⟨rfl, ?_, ?_, ?_⟩
    · intro x hx
      simp only [List.mem_cons, List.mem_append] at hx
      rcases hx with hx | hx | hx
      · omega
      · exact h2 x (List.mem_of_mem_take hx)
      · exact h2 x (List.mem_of_mem_drop hx)
    · simp only [List.length_cons, List.length_append, List.length_take, List.length_drop]
      omega
    · have hl' : (r :: (l.take (l.indexOf r) ++ l.drop (l.indexOf r + 1))).length
          = l.length := by
        simp only [List.length_cons, List.length_append, List.length_take, List.length_drop]
        omega
      rw [hl', h4, List.take_append_of_le_length (by omega),
        List.drop_append_of_le_length (by omega)]
      simp
  · -- miss
    rw [if_neg hm] at hscan
    simp only [lruStep, hscan, lruModelStep, hm, if_false]
    rw [shiftLoop_set_zero_of_lt r items _ (by omega)]
    have hdrop : items.drop (n - 1 + 1) = [] := by
      apply List.drop_of_length_le; omega
    rw [hdrop, List.append_nil]
    by_cases hfull : l.length = n
    · have hitems : items = l := by simpa [hfull] using h4
      simp only [hfull, if_true]
      refine ⟨rfl, ?_, ?_, ?_⟩
      · intro x hx
        simp only [List.mem_cons] at hx
        rcases hx with hx | hx
        · omega
        · exact h2 x (List.mem_of_mem_dropLast hx)
      · simp; omega
      · rw [hitems, List.dropLast_eq_take]
        simp only [List.length_cons, List.length_take]
        have : n - (min (l.length - 1) l.length + 1) = 0 := by omega
        rw [this, hfull]; simp
    · simp only [hfull, if_false]
      refine ⟨rfl, ?_, ?_, ?_⟩
      · intro x hx
        simp only [List.mem_cons] at hx
        rcases hx with hx | hx
        · omega
        · exact h2 x hx
      · simp; omega
      · rw [h4, List.take_append_eq_append_take, List.take_of_length_le (by omega),
          List.take_replicate]
        simp only [List.length_cons, List.cons_append, List.cons.injEq, true_and,
          List.append_cancel_left_eq]
        congr 1; omega

theorem lruRel_foldl (n : Nat) (hn : 1 ≤ n) (refs : List Int) :
    ∀ (s : LruState) (m : List Int × Int), LruRel n s m → (∀ r ∈ refs, (0 : Int) ≤ r) →
      LruRel n (refs.foldl (lruStep n) s) (refs.foldl (lruModelStep n) m) := by
  induction refs with
  | nil => intro s m h _; exact h
  | cons r rest ih =>
    intro s m h hr
    simp only [List.foldl_cons]
    exact ih _ _ (lruRel_step n hn s m r h (hr r (List.mem_cons_self _ _)))
      (fun x hx => hr x (List.mem_cons_of_mem _ hx))

theorem lruRel_run (n k : Nat) (hn : 1 ≤ n) (prev : LruState) (refs : List Int)
    (hk : k ≤ refs.length) (hr : ∀ r ∈ refs, (0 : Int) ≤ r) :
    LruRel n (runLRUFrom prev n k refs) (lruModel n (refs.take k)) := by
  rw [runLRUFrom_eq_foldl prev n k refs hk]
  exact lruRel_foldl n hn _ _ _ (lruRel_init n prev)
    (fun r h => hr r (List.mem_of_mem_take h))

/-! ## Facts about the reference FIFO model -/

theorem fifoModel_snoc (n : Nat) (pre : List Int) (r : Int) :
    fifoModel n (pre ++ [r]) = fifoModelStep n (fifoModel n pre) r := by
  simp [fifoModel, List.foldl_append]

theorem lruModel_snoc (n : Nat) (pre : List Int) (r : Int) :
    lruModel n (pre ++ [r]) = lruModelStep n (lruModel n pre) r := by
  simp [lruModel, List.foldl_append]

theorem fifoModel_inv (n : Nat) (hn : 1 ≤ n) (refs : List Int) :
    (fifoModel n refs).1.Nodup ∧ 0 ≤ (fifoModel n refs).2 ∧
      (fifoModel n refs).2 ≤ refs.length ∧
      ((fifoModel n refs).1.length : Int) = min (n : Int) (refs.length - (fifoModel n refs).2) := by
  induction refs using List.reverseRecOn with
  | nil => simp [fifoModel]
  | append_singleton pre r ih =>
    rw [fifoModel_snoc]
    obtain ⟨h1, h2, h3, h4⟩ := ih
    generalize fifoModel n pre = m at h1 h2 h3 h4
    obtain ⟨q, hits⟩ := m
    simp only at h1 h2 h3 h4
    simp only [fifoModelStep, List.length_append, List.length_singleton, Nat.cast_add,
      Nat.cast_one]
    by_cases hm : r ∈ q
    · simp only [hm, if_true]
      refine ⟨h1, by omega, by omega, ?_⟩
      rw [h4]; congr 1; omega
    · simp only [hm, if_false]
      by_cases hfull : q.length = n
      · simp only [hfull, if_true]
        refine ⟨?_, h2, by omega, ?_⟩
        · rw [List.nodup_append]
          refine ⟨(List.tail_sublist q).nodup h1, List.nodup_singleton r, ?_⟩
          intro x hx hx'
          simp only [List.mem_singleton] at hx'
          subst hx'
          exact hm (List.mem_of_mem_tail hx)
        · simp only [List.length_append, List.length_tail, List.length_singleton, hfull]
          rw [hfull] at h4
          have : n - 1 + 1 = n := by omega
          rw [this]
          omega
      · simp only [hfull, if_false]
        refine ⟨?_, h2, by omega, ?_⟩
        · rw [List.nodup_append]
          refine ⟨h1, List.nodup_singleton r, ?_⟩
          intro x hx hx'
          simp only [List.mem_singleton] at hx'
          subst hx'
          exact hm hx
        · simp only [List.length_append, List.length_singleton, Nat.cast_add, Nat.cast_one]
          have hne : (q.length : Int) ≠ n := by exact_mod_cast hfull
          omega

theorem fifoModel_not_mem_snoc (n : Nat) (pre : List Int) (r x : Int) (hx : x ≠ r)
    (h : x ∉ (fifoModel n pre).1) : x ∉ (fifoModel n (pre ++ [r])).1 := by
  rw [fifoModel_snoc]
  unfold fifoModelStep
  split
  · exact h
  · simp only [List.mem_append, List.mem_singleton, not_or]
    refine ⟨?_, hx⟩
    split
    · exact fun h' => h (List.mem_of_mem_tail h')
    · exact h

theorem fifoModel_not_mem_append (n : Nat) (pre : List Int) (x : Int)
    (h : x ∉ (fifoModel n pre).1) :
    ∀ mid : List Int, x ∉ mid → x ∉ (fifoModel n (pre ++ mid)).1 := by
  intro mid
  induction mid using List.reverseRecOn with
  | nil => intro _; simpa using h
  | append_singleton mid r ih =>
    intro hx
    simp only [List.mem_append, List.mem_singleton, not_or] at hx
    rw [← List.append_assoc]
    exact fifoModel_not_mem_snoc n _ r x hx.2 (ih hx.1)

/-! ## The hit counter moves by at most one per reference -/

theorem cq_dequeue_hit (s : FifoState) : (cq_dequeue s).hit = s.hit := by
  unfold cq_dequeue
  split <;> rfl

theorem cq_enqueue_hit (s : FifoState) (e : Int) : (cq_enqueue s e).hit = s.hit := by
  unfold cq_enqueue
  simp only
  split <;> split <;> simp [cq_dequeue_hit]

theorem fifoStep_hit (n : Nat) (s : FifoState) (r : Int) :
    s.hit ≤ (fifoStep n s r).hit ∧ (fifoStep n s r).hit ≤ s.hit + 1 := by
  unfold fifoStep
  split
  · simp
  · rw [cq_enqueue_hit]; omega

theorem lruStep_hit (n : Nat) (s : LruState) (r : Int) :
    s.hit ≤ (lruStep n s r).hit ∧ (lruStep n s r).hit ≤ s.hit + 1 := by
  unfold lruStep
  split <;> simp

theorem fifoLoop_hit (n : Nat) (refs : List Int) :
    ∀ (fuel j : Nat) (s : FifoState),
      s.hit ≤ (fifoLoop n refs fuel j s).hit ∧ (fifoLoop n refs fuel j s).hit ≤ s.hit + fuel := by
  intro fuel
  induction fuel with
  | zero => intro j s; simp [fifoLoop]
  | succ k ih =>
    intro j s
    rw [fifoLoop]
    have h1 := ih (j + 1) (fifoStep n s (refs.getD j 0))
    have h2 := fifoStep_hit n s (refs.getD j 0)
    push_cast
    omega

theorem lruLoop_hit (n : Nat) (refs : List Int) :
    ∀ (fuel j : Nat) (s : LruState),
      s.hit ≤ (lruLoop n refs fuel j s).hit ∧ (lruLoop n refs fuel j s).hit ≤ s.hit + fuel := by
  intro fuel
  induction fuel with
  | zero => intro j s; simp [lruLoop]
  | succ k ih =>
    intro j s
    rw [lruLoop]
    have h1 := ih (j + 1) (lruStep n s (refs.getD j 0))
    have h2 := lruStep_hit n s (refs.getD j 0)
    push_cast
    omega

/-! ## Recency order of a stream -/

theorem mruOrder_snoc (pre : List Int) (r : Int) :
    mruOrder (pre ++ [r]) = r :: (mruOrder pre).filter (fun y => y != r) := by
  simp [mruOrder, List.foldl_append]

theorem mem_mruOrder (pre : List Int) (x : Int) : x ∈ mruOrder pre ↔ x ∈ pre := by
  induction pre using List.reverseRecOn with
  | nil => simp [mruOrder]
  | append_singleton pre r ih =>
    rw [mruOrder_snoc]
    simp only [List.mem_cons, List.mem_filter, ih, List.mem_append, List.mem_singleton,
      bne_iff_ne, ne_eq]
    by_cases hx : x = r
    · simp [hx]
    · simp [hx]

theorem mruOrder_nodup (pre : List Int) : (mruOrder pre).Nodup := by
  induction pre using List.reverseRecOn with
  | nil => simp [mruOrder]
  | append_singleton pre r ih =>
    rw [mruOrder_snoc, List.nodup_cons]
    refine ⟨?_, ih.filter _⟩
    simp [List.mem_filter]

theorem mruOrder_length (pre : List Int) : (mruOrder pre).length = pre.toFinset.card := by
  rw [← List.toFinset_card_of_nodup (mruOrder_nodup pre)]
  congr 1
  ext x
  simp [mem_mruOrder]

theorem lastOcc_cons (x y : Int) (ys : List Int) :
    lastOcc x (y :: ys) =
      match lastOcc x ys with
      | some j => some (j + 1)
      | none => if y = x then some 0 else none := rfl

theorem lastOcc_snoc (x r : Int) (pre : List Int) :
    lastOcc x (pre ++ [r]) = if r = x then some pre.length else lastOcc x pre := by
  induction pre with
  | nil => simp [lastOcc]
  | cons y ys ih =>
    rw [List.cons_append, lastOcc_cons, ih, lastOcc_cons]
    by_cases hr : r = x
    · simp [hr]
    · simp [hr]

theorem lastOcc_lt (x : Int) (pre : List Int) (p : Nat) (h : lastOcc x pre = some p) :
    p < pre.length := by
  induction pre generalizing p with
  | nil => simp [lastOcc] at h
  | cons y ys ih =>
    rw [lastOcc_cons] at h
    cases hq : lastOcc x ys with
    | some j =>
      simp only [hq, Option.some.injEq] at h
      have := ih j hq
      simp only [List.length_cons]
      omega
    | none =>
      simp only [hq] at h
      by_cases hy : y = x
      · simp only [hy, if_true, Option.some.injEq] at h
        simp only [List.length_cons]
        omega
      · simp [hy] at h

theorem lastOcc_of_mem (x : Int) (pre : List Int) (h : x ∈ pre) :
    ∃ p, lastOcc x pre = some p := by
  induction pre with
  | nil => simp at h
  | cons y ys ih =>
    rw [lastOcc_cons]
    cases hq : lastOcc x ys with
    | some j => exact ⟨j + 1, rfl⟩
    | none =>
      rcases List.mem_cons.mp h with h | h
      · exact ⟨0, by simp [h]⟩
      · obtain ⟨p, hp⟩ := ih h
        rw [hq] at hp
        exact Option.noConfusion hp

theorem mem_of_lastOcc (x : Int) (pre : List Int) (p : Nat) (h : lastOcc x pre = some p) :
    x ∈ pre := by
  induction pre generalizing p with
  | nil => simp [lastOcc] at h
  | cons y ys ih =>
    rw [lastOcc_cons] at h
    cases hq : lastOcc x ys with
    | some j => exact List.mem_cons_of_mem _ (ih j hq)
    | none =>
      simp only [hq] at h
      by_cases hy : y = x
      · rw [hy]; exact List.mem_cons_self _ _
      · simp [hy] at h

theorem mruOrder_pairwise (pre : List Int) :
    (mruOrder pre).Pairwise (MoreRecent pre) := by
  induction pre using List.reverseRecOn with
  | nil => simp [mruOrder]
  | append_singleton pre r ih =>
    rw [mruOrder_snoc, List.pairwise_cons]
    constructor
    · intro b hb
      simp only [List.mem_filter, bne_iff_ne, ne_eq] at hb
      obtain ⟨q, hq⟩ := lastOcc_of_mem b pre ((mem_mruOrder pre b).mp hb.1)
      refine ⟨pre.length, q, ?_, ?_, lastOcc_lt b pre q hq⟩
      · simp [lastOcc_snoc]
      · rw [lastOcc_snoc, if_neg (fun h => hb.2 h.symm)]
        exact hq
    · have hsub : ((mruOrder pre).filter (fun y => y != r)).Pairwise (MoreRecent pre) :=
        ih.sublist (List.filter_sublist _)
      refine hsub.imp_of_mem ?_
      intro a b ha hb hab
      simp only [List.mem_filter, bne_iff_ne, ne_eq] at ha hb
      obtain ⟨p, q, hp, hq, hlt⟩ := hab
      refine ⟨p, q, ?_, ?_, hlt⟩
      · rw [lastOcc_snoc, if_neg (fun h => ha.2 h.symm)]; exact hp
      · rw [lastOcc_snoc, if_neg (fun h => hb.2 h.symm)]; exact hq

/-! ## The reference LRU model holds the most recent identifiers -/

theorem take_pred_filter_of_not_mem (r : Int) (L : List Int) :
    ∀ n : Nat, 1 ≤ n → r ∉ L.take n →
      (L.filter (fun y => y != r)).take (n - 1) = L.take (n - 1) := by
  induction L with
  | nil => intro n _ _; simp
  | cons a L ih =>
    intro n hn hr
    obtain ⟨k, rfl⟩ : ∃ k, n = k + 1 := ⟨n - 1, by omega⟩
    simp only [List.take_succ_cons, List.mem_cons, not_or] at hr
    have ha : (a != r) = true := by
      simp only [bne_iff_ne, ne_eq]; exact fun h => hr.1 h.symm
    simp only [List.filter_cons, ha, if_true, Nat.add_sub_cancel]
    cases k with
    | zero => simp
    | succ k =>
      simp only [List.take_succ_cons, List.cons.injEq, true_and]
      exact ih (k + 1) (by omega) hr.2

theorem take_pred_filter_of_mem (r : Int) (L : List Int) :
    ∀ n : Nat, L.Nodup → r ∈ L.take n →
      (L.take n).take ((L.take n).indexOf r) ++ (L.take n).drop ((L.take n).indexOf r + 1) =
        (L.filter (fun y => y != r)).take (n - 1) := by
  induction L with
  | nil => intro n _ h; simp at h
  | cons a L ih =>
    intro n hnd hr
    cases n with
    | zero => simp at hr
    | succ k =>
      rw [List.nodup_cons] at hnd
      simp only [List.take_succ_cons, Nat.add_sub_cancel]
      by_cases ha : a = r
      · subst ha
        have hf : L.filter (fun y => y != a) = L := by
          rw [List.filter_eq_self]
          intro y hy
          simp only [bne_iff_ne, ne_eq]
          exact fun h => hnd.1 (h ▸ hy)
        simp [hf]
      · simp only [List.take_succ_cons, List.mem_cons] at hr
        have hr' : r ∈ L.take k := by
          rcases hr with h | h
          · exact absurd h.symm ha
          · exact h
        have ha' : (a != r) = true := by simp only [bne_iff_ne, ne_eq]; exact ha
        have hk : 1 ≤ k := by
          cases k with
          | zero => simp at hr'
          | succ k => omega
        obtain ⟨j, rfl⟩ : ∃ j, k = j + 1 := ⟨k - 1, by omega⟩
        have := ih (j + 1) hnd.2 hr'
        simp only [Nat.add_sub_cancel] at this
        simp only [List.indexOf_cons_ne _ ha, List.take_succ_cons, List.drop_succ_cons,
          List.filter_cons, ha', if_true, List.cons_append, List.cons.injEq, true_and]
        exact this

theorem lruModel_list (n : Nat) (hn : 1 ≤ n) (pre : List Int) :
    (lruModel n pre).1 = (mruOrder pre).take n := by
  induction pre using List.reverseRecOn with
  | nil => simp [lruModel, mruOrder]
  | append_singleton pre r ih =>
    rw [lruModel_snoc, mruOrder_snoc]
    obtain ⟨k, rfl⟩ : ∃ k, n = k + 1 := ⟨n - 1, by omega⟩
    rw [List.take_succ_cons]
    unfold lruModelStep
    rw [ih]
    by_cases hm : r ∈ (mruOrder pre).take (k + 1)
    · simp only [hm, if_true]
      rw [take_pred_filter_of_mem r _ (k + 1) (mruOrder_nodup pre) hm]
      simp
    · simp only [hm, if_false]
      have h1 := take_pred_filter_of_not_mem r (mruOrder pre) (k + 1) (by omega) hm
      simp only [Nat.add_sub_cancel] at h1
      rw [h1]
      by_cases hfull : ((mruOrder pre).take (k + 1)).length = k + 1
      · simp only [hfull, if_true]
        rw [List.dropLast_eq_take, List.take_take, List.length_take]
        congr 2
        rw [List.length_take] at hfull
        omega
      · simp only [hfull, if_false]
        rw [List.length_take] at hfull
        rw [List.take_of_length_le (by omega), List.take_of_length_le (by omega)]

/-! ## Reading a padded array and further facts about the models -/

theorem getElem?_padded (l : List Int) (m i : Nat) (a : Int)
    (h : (l ++ List.replicate m (-1))[i]? = some a) (ha : a ≠ -1) :
    l[i]? = some a := by
  by_cases hi : i < l.length
  · rwa [List.getElem?_append_left hi] at h
  · rw [List.getElem?_append_right (by omega)] at h
    obtain ⟨_, hget⟩ := List.getElem?_eq_some.mp h
    rw [List.getElem_replicate] at hget
    exact absurd hget.symm ha

theorem nodup_getElem?_ne (l : List Int) (hl : l.Nodup) (i j : Nat) (a b : Int)
    (hij : i < j) (hi : l[i]? = some a) (hj : l[j]? = some b) : a ≠ b := by
  obtain ⟨hi', rfl⟩ := List.getElem?_eq_some.mp hi
  obtain ⟨hj', rfl⟩ := List.getElem?_eq_some.mp hj
  intro h
  have := (List.Nodup.getElem_inj_iff hl).mp h
  omega

theorem fifoModel_last_mem (n : Nat) (pre : List Int) (r : Int) :
    r ∈ (fifoModel n (pre ++ [r])).1 := by
  rw [fifoModel_snoc]
  unfold fifoModelStep
  split
  · assumption
  · simp

theorem fifoModel_hits_snoc (n : Nat) (pre : List Int) (r : Int) :
    (fifoModel n (pre ++ [r])).2 =
      (fifoModel n pre).2 + if r ∈ (fifoModel n pre).1 then 1 else 0 := by
  rw [fifoModel_snoc]
  unfold fifoModelStep
  split <;> simp

theorem lruModel_hits_snoc (n : Nat) (pre : List Int) (r : Int) :
    (lruModel n (pre ++ [r])).2 =
      (lruModel n pre).2 + if r ∈ (lruModel n pre).1 then 1 else 0 := by
  rw [lruModel_snoc]
  unfold lruModelStep
  split <;> simp

theorem models_one (pre : List Int) :
    fifoModel 1 pre = lruModel 1 pre ∧ (fifoModel 1 pre).1 = pre.getLast?.toList := by
  induction pre using List.reverseRecOn with
  | nil => simp [fifoModel, lruModel]
  | append_singleton pre r ih =>
    obtain ⟨h1, h2⟩ := ih
    rw [fifoModel_snoc, lruModel_snoc, ← h1]
    generalize fifoModel 1 pre = m at h2
    obtain ⟨q, h⟩ := m
    simp only at h2
    subst h2
    cases hl : pre.getLast? with
    | none => simp [fifoModelStep, lruModelStep]
    | some x =>
      by_cases hx : r = x
      · subst hx
        simp [fifoModelStep, lruModelStep]
      · simp [fifoModelStep, lruModelStep, hx]

theorem models_replicate (c : Nat) (hc : 1 ≤ c) (v : Int) (k : Nat) :
    fifoModel c (List.replicate (k + 1) v) = ([v], (k : Int)) ∧
      lruModel c (List.replicate (k + 1) v) = ([v], (k : Int)) := by
  have hc0 : ¬ (0 = c) := by omega
  induction k with
  | zero => simp [fifoModel, lruModel, fifoModelStep, lruModelStep, hc0]
  | succ k ih =>
    rw [List.replicate_succ', fifoModel_snoc, lruModel_snoc, ih.1, ih.2]
    simp [fifoModelStep, lruModelStep]

/-! ## The circular span of the FIFO queue -/

theorem tmod_add_self_of_lt {x n : Int} (h0 : 0 ≤ x) (h : x < n) :
    Int.tmod (x + n) n = x := by
  rw [Int.tmod_eq_emod (by omega) (by omega), Int.add_emod_self]
  exact Int.emod_eq_of_lt h0 h

theorem tmod_of_lt {x n : Int} (h0 : 0 ≤ x) (h : x < n) : Int.tmod x n = x := by
  rw [Int.tmod_eq_emod h0 (by omega)]
  exact Int.emod_eq_of_lt h0 h

theorem fifoRel_span {n : Nat} {s : FifoState} {m : List Int × Int} (h : FifoRel n s m) :
    residentSpan s = m.1.length := by
  obtain ⟨hsz, _, _, hA | ⟨A, B, hB, _, hq, hl, hf, hre⟩⟩ := h
  · obtain ⟨hlt, _, hf, hre⟩ := hA
    unfold residentSpan
    by_cases hq0 : m.1 = []
    · simp [hf, hq0]
    · have hpos : 0 < m.1.length := List.length_pos.mpr hq0
      rw [hf, if_neg hq0, if_neg (by decide), hre, hsz]
      have := tmod_add_self_of_lt (x := (m.1.length : Int) - 1) (n := n) (by omega) (by omega)
      rw [show (m.1.length : Int) - 1 - 0 + n = (m.1.length : Int) - 1 + n by omega, this]
      omega
  · have hBl : 0 < B.length := List.length_pos.mpr hB
    have hqn : m.1.length = n := by
      rw [hq, List.length_append, Nat.add_comm, ← List.length_append]; exact hl
    rw [List.length_append] at hl
    unfold residentSpan
    rw [hf, hre, hsz, if_neg (by omega), hqn]
    have := tmod_add_self_of_lt (x := (n : Int) - 1) (n := n) (by omega) (by omega)
    by_cases hA0 : A = []
    · subst hA0
      rw [if_pos rfl]
      simp only [List.length_nil, Nat.cast_zero, sub_zero]
      rw [this]; omega
    · rw [if_neg hA0]
      rw [show (A.length : Int) - 1 - A.length + n = (n : Int) - 1 by omega,
        tmod_of_lt (by omega) (by omega)]
      omega

theorem fifoRel_bounds {n : Nat} {s : FifoState} {m : List Int × Int} (h : FifoRel n s m)
    (hne : m.1 ≠ []) :
    0 ≤ s.cq_front ∧ s.cq_front < n ∧ 0 ≤ s.cq_rear ∧ s.cq_rear < n := by
  obtain ⟨_, _, _, hA | ⟨A, B, hB, _, _, hl, hf, hre⟩⟩ := h
  · obtain ⟨hlt, _, hf, hre⟩ := hA
    have hpos : 0 < m.1.length := List.length_pos.mpr hne
    rw [hf, hre, if_neg hne]
    omega
  · have hBl : 0 < B.length := List.length_pos.mpr hB
    rw [List.length_append] at hl
    rw [hf, hre]
    by_cases hA0 : A = []
    · subst hA0
      rw [if_pos rfl]
      simp only [List.length_nil, Nat.cast_zero]
      omega
    · have hAl : 0 < A.length := List.length_pos.mpr hA0
      rw [if_neg hA0]
      omega

theorem fifoRel_occupied {n : Nat} {s : FifoState} {m : List Int × Int} (h : FifoRel n s m) :
    (s.cq_items.filter (fun x => x != -1)).length = m.1.length := by
  obtain ⟨_, _, hnn, hA | ⟨A, B, _, hi, hq, _, _⟩⟩ := h
  · rw [hA.2.1, List.filter_append]
    have h1 : m.1.filter (fun x => x != -1) = m.1 := by
      rw [List.filter_eq_self]
      intro x hx
      have := hnn x hx
      simp only [bne_iff_ne, ne_eq]
      omega
    have h2 : (List.replicate (n - m.1.length) (-1 : Int)).filter (fun x => x != -1) = [] := by
      rw [List.filter_eq_nil_iff]
      intro x hx
      simp [List.eq_of_mem_replicate hx]
    rw [h1, h2, List.append_nil]
  · have h1 : (A ++ B).filter (fun x => x != -1) = A ++ B := by
      rw [List.filter_eq_self]
      intro x hx
      have : x ∈ m.1 := by
        rw [hq, List.mem_append]
        exact (List.mem_append.mp hx).symm
      have := hnn x this
      simp only [bne_iff_ne, ne_eq]
      omega
    rw [hi, h1, hq, List.length_append, List.length_append, Nat.add_comm]

/-! ## The validation of `main` -/

theorem referencesAreValid_append (M : Int) (suf : List Int) :
    ∀ pre : List Int,
      referencesAreValid (pre ++ suf) M suf.length pre.length = true ↔
        ∀ r ∈ suf, 0 ≤ r ∧ r < M := by
  induction suf with
  | nil => intro pre; simp [referencesAreValid]
  | cons a t ih =>
    intro pre
    have hget : (pre ++ a :: t).getD pre.length 0 = a := by
      rw [List.getD_eq_getElem?_getD, List.getElem?_append_right (le_refl _)]
      simp
    have h1 := ih (pre ++ [a])
    simp only [List.append_assoc, List.singleton_append, List.length_append,
      List.length_singleton] at h1
    simp only [List.length_cons, referencesAreValid, hget, List.mem_cons, forall_eq_or_imp]
    by_cases ha : a ≥ M ∨ a < 0
    · simp only [ha, if_true, Bool.false_eq_true, false_iff, not_and]
      intro h
      omega
    · simp only [ha, if_false, h1]
      constructor
      · intro h
        exact ⟨by omega, h⟩
      · exact fun h => h.2

theorem referencesAreValid_iff (references : List Int) (M : Int) :
    referencesAreValid references M references.length 0 = true ↔
      ∀ r ∈ references, 0 ≤ r ∧ r < M := by
  have h := referencesAreValid_append M references []
  simpa using h

theorem referencesAreValid_false_iff (references : List Int) (M : Int) :
    referencesAreValid references M references.length 0 = false ↔
      ∃ r ∈ references, r < 0 ∨ M ≤ r := by
  rw [← Bool.not_eq_true, referencesAreValid_iff]
  push_neg
  constructor
  · rintro ⟨r, hr, h⟩
    refine ⟨r, hr, ?_⟩
    by_cases h0 : 0 ≤ r
    · exact Or.inr (h h0)
    · exact Or.inl (by omega)
  · rintro ⟨r, hr, h⟩
    refine ⟨r, hr, fun h0 => ?_⟩
    omega

theorem validateAndRun_memory (n : Nat) (c M : Int) (t : Char) (refs : List Int)
    (hM : ¬ (M = 32 ∨ M = 64 ∨ M = 128)) :
    validateAndRun n c M t refs = [Line.invalidMemorySize] := by
  have h : M ≠ 32 ∧ M ≠ 64 ∧ M ≠ 128 := by
    refine ⟨fun h => hM (Or.inl h), fun h => hM (Or.inr (Or.inl h)),
      fun h => hM (Or.inr (Or.inr h))⟩
  unfold validateAndRun
  rw [if_pos h]

theorem validateAndRun_cache (n : Nat) (c M : Int) (t : Char) (refs : List Int)
    (hM : M = 32 ∨ M = 64 ∨ M = 128) (hc : ¬ (1 ≤ c ∧ c ≤ Int.tdiv M 4)) :
    validateAndRun n c M t refs = [Line.invalidCacheSize] := by
  have h : ¬ (M ≠ 32 ∧ M ≠ 64 ∧ M ≠ 128) := by
    rintro ⟨h1, h2, h3⟩
    rcases hM with h | h | h
    · exact h1 h
    · exact h2 h
    · exact h3 h
  have h' : c > Int.tdiv M 4 ∨ c < 1 := by
    by_cases h1 : 1 ≤ c
    · left
      by_contra h2
      exact hc ⟨h1, by omega⟩
    · right; omega
  unfold validateAndRun
  rw [if_neg h, if_pos h']

theorem validateAndRun_valid (c M : Int) (t : Char) (refs : List Int)
    (hM : M = 32 ∨ M = 64 ∨ M = 128) (hc : 1 ≤ c ∧ c ≤ Int.tdiv M 4) :
    validateAndRun refs.length c M t refs =
      if referencesAreValid refs M refs.length 0 = false then [Line.invalidReference]
      else if t = 'F' ∨ t = 'f' then
        [Line.hitRatio (reportFIFO c.toNat refs.length refs)]
      else if t = 'L' ∨ t = 'l' then
        [Line.hitRatio (reportLRU c.toNat refs.length refs)]
      else [Line.invalidPolicy] := by
  have h : ¬ (M ≠ 32 ∧ M ≠ 64 ∧ M ≠ 128) := by
    rintro ⟨h1, h2, h3⟩
    rcases hM with h | h | h
    · exact h1 h
    · exact h2 h
    · exact h3 h
  have h' : ¬ (c > Int.tdiv M 4 ∨ c < 1) := by
    rintro (h1 | h1) <;> omega
  unfold validateAndRun
  rw [if_neg h, if_neg h']

theorem validateAndRun_length (n : Nat) (c M : Int) (t : Char) (refs : List Int) :
    (validateAndRun n c M t refs).length = 1 := by
  unfold validateAndRun
  split
  · rfl
  · split
    · rfl
    · split
      · rfl
      · split
        · rfl
        · split <;> rfl

theorem validateAndRun_hitRatio (n : Nat) (c M : Int) (t : Char) (refs : List Int)
    (r : Report) (h : Line.hitRatio r ∈ validateAndRun n c M t refs) :
    (1 ≤ c ∧ (t = 'F' ∨ t = 'f') ∧ r = reportFIFO c.toNat n refs) ∨
      (1 ≤ c ∧ (t = 'L' ∨ t = 'l') ∧ r = reportLRU c.toNat n refs) := by
  unfold validateAndRun at h
  split at h
  · simp at h
  · split at h
    · simp at h
    · rename_i hc
      have hc1 : 1 ≤ c := by
        by_contra hlt
        exact hc (Or.inr (by omega))
      split at h
      · simp at h
      · split at h
        · rename_i hF
          simp only [List.mem_singleton, Line.hitRatio.injEq] at h
          exact Or.inl ⟨hc1, hF, h⟩
        · split at h
          · rename_i hL
            simp only [List.mem_singleton, Line.hitRatio.injEq] at h
            exact Or.inr ⟨hc1, hL, h⟩
          · simp at h

theorem main_of_five (atoi : String → Int) (argv : List String) (h : 5 ≤ argv.length) :
    main atoi argv =
      validateAndRun (argv.length - 4) (atoi (argv.getD 1 "")) (atoi (argv.getD 2 ""))
        (firstChar (argv.getD 3 "")) ((argv.drop 4).map atoi) := by
  unfold main
  rw [if_neg (by omega)]

/-- What `main` does with the policy argument of an otherwise valid
invocation (at least one reference, valid memory size, cache size and
references): it looks at the first character only.  The FIFO engine runs when
that is `F` or `f`, the LRU engine when it is `L` or `l`, whatever follows,
and the invalid-policy message is printed exactly when it is none of the
four. -/
theorem main_policy_first_character (atoi : String → Int) (argv : List String)
    (hargc : 5 ≤ argv.length)
    (hM : atoi (argv.getD 2 "") = 32 ∨ atoi (argv.getD 2 "") = 64 ∨
      atoi (argv.getD 2 "") = 128)
    (hc : 1 ≤ atoi (argv.getD 1 "") ∧
      atoi (argv.getD 1 "") ≤ Int.tdiv (atoi (argv.getD 2 "")) 4)
    (hr : ∀ r ∈ (argv.drop 4).map atoi, 0 ≤ r ∧ r < atoi (argv.getD 2 "")) :
    ((firstChar (argv.getD 3 "") = 'F' ∨ firstChar (argv.getD 3 "") = 'f') →
      main atoi argv =
        [Line.hitRatio (reportFIFO (atoi (argv.getD 1 "")).toNat (argv.length - 4)
          ((argv.drop 4).map atoi))]) ∧
    ((firstChar (argv.getD 3 "") = 'L' ∨ firstChar (argv.getD 3 "") = 'l') →
      main atoi argv =
        [Line.hitRatio (reportLRU (atoi (argv.getD 1 "")).toNat (argv.length - 4)
          ((argv.drop 4).map atoi))]) ∧
    (main atoi argv = [Line.invalidPolicy] ↔
      ¬ (firstChar (argv.getD 3 "") = 'F' ∨ firstChar (argv.getD 3 "") = 'f' ∨
          firstChar (argv.getD 3 "") = 'L' ∨ firstChar (argv.getD 3 "") = 'l')) := by
  have hlen : ((argv.drop 4).map atoi).length = argv.length - 4 := by simp
  have hv : ¬ (referencesAreValid ((argv.drop 4).map atoi) (atoi (argv.getD 2 ""))
      ((argv.drop 4).map atoi).length 0 = false) := by
    rw [(referencesAreValid_iff _ _).mpr hr]
    exact Bool.noConfusion
  have hmain := main_of_five atoi argv hargc
  rw [← hlen] at hmain ⊢
  rw [validateAndRun_valid _ _ _ _ hM hc, if_neg hv] at hmain
  rw [hmain]
  have hFL : ∀ ch : Char, (ch = 'F' ∨ ch = 'f') → ¬ (ch = 'L' ∨ ch = 'l') := by
    intro ch h1 h2
    rcases h1 with h1 | h1 <;> rcases h2 with h2 | h2 <;> rw [h1] at h2 <;>
      exact absurd h2 (by decide)
  refine ⟨fun hF => by rw [if_pos hF], fun hL => ?_, ?_⟩
  · rw [if_neg (fun hF => hFL _ hF hL), if_pos hL]
  · by_cases hF : firstChar (argv.getD 3 "") = 'F' ∨ firstChar (argv.getD 3 "") = 'f'
    · rw [if_pos hF]
      constructor
      · intro h; simp at h
      · intro h
        exact absurd (hF.elim Or.inl (fun h => Or.inr (Or.inl h))) h
    · rw [if_neg hF]
      by_cases hL : firstChar (argv.getD 3 "") = 'L' ∨ firstChar (argv.getD 3 "") = 'l'
      · rw [if_pos hL]
        constructor
        · intro h; simp at h
        · intro h
          exact absurd (hL.elim (fun h => Or.inr (Or.inr (Or.inl h)))
            (fun h => Or.inr (Or.inr (Or.inr h)))) h
      · rw [if_neg hL]
        constructor
        · rintro _ (h | h | h | h)
          · exact hF (Or.inl h)
          · exact hF (Or.inr h)
          · exact hL (Or.inl h)
          · exact hL (Or.inr h)
        · exact fun _ => rfl

/-! ## The state reset and the index shape of the FIFO queue -/

theorem fillLoop_append (suf : List Int) :
    ∀ pre : List Int,
      fillLoop (pre ++ suf) suf.length pre.length = pre ++ List.replicate suf.length (-1) := by
  induction suf with
  | nil => intro pre; simp [fillLoop]
  | cons a t ih =>
    intro pre
    have h1 := ih (pre ++ [-1])
    simp only [List.append_assoc, List.singleton_append, List.length_append,
      List.length_singleton] at h1
    rw [List.length_cons, fillLoop, set_append_length, h1, List.replicate_succ]

theorem fillLoop_full (items : List Int) :
    fillLoop items items.length 0 = List.replicate items.length (-1) := by
  have h := fillLoop_append items []
  simpa using h

theorem fifoResetOn_eq (n : Nat) (prev : FifoState) (fresh : List Int)
    (h : fresh.length = n) : fifoResetOn n prev fresh = fifoReset n prev := by
  have hfill := fillLoop_full fresh
  rw [h] at hfill
  simp only [fifoResetOn, fifoReset, hfill]

theorem runFIFOOn_eq (n k : Nat) (prev : FifoState) (fresh refs : List Int)
    (h : fresh.length = n) : runFIFOOn prev fresh n k refs = runFIFO n k refs := by
  unfold runFIFOOn runFIFO runFIFOFrom
  rw [fifoResetOn_eq n prev fresh h]
  rfl

theorem writeAt_natCast (items : List Int) (i : Nat) (v : Int) :
    writeAt items (i : Int) v = items.set i v := by
  unfold writeAt
  rw [if_pos (Int.natCast_nonneg _), Int.toNat_natCast]

theorem cq_enqueue_of_empty (s : FifoState) (r : Int) (hf : s.cq_front = -1)
    (hr : s.cq_rear = -1) :
    cq_enqueue s r =
      { s with
        cq_front := 0
        cq_rear := Int.tmod (-1 + 1) s.cq_size
        cq_items := writeAt s.cq_items (Int.tmod (-1 + 1) s.cq_size) r } := by
  have hc : ¬ ((s.cq_front = 0 ∧ s.cq_rear = s.cq_size - 1) ∨ s.cq_front = s.cq_rear + 1) := by
    rw [hf, hr]
    rintro (⟨h, _⟩ | h) <;> exact absurd h (by decide)
  unfold cq_enqueue
  simp only [hc, if_false]
  simp only [hf, hr, if_true]

theorem cq_enqueue_of_room (s : FifoState) (r : Int)
    (hc : ¬ ((s.cq_front = 0 ∧ s.cq_rear = s.cq_size - 1) ∨ s.cq_front = s.cq_rear + 1))
    (hf : ¬ (s.cq_front = -1)) :
    cq_enqueue s r =
      { s with
        cq_rear := Int.tmod (s.cq_rear + 1) s.cq_size
        cq_items := writeAt s.cq_items (Int.tmod (s.cq_rear + 1) s.cq_size) r } := by
  unfold cq_enqueue
  simp only [hc, if_false, hf]

theorem cq_enqueue_of_single (s : FifoState) (r : Int)
    (hc : (s.cq_front = 0 ∧ s.cq_rear = s.cq_size - 1) ∨ s.cq_front = s.cq_rear + 1)
    (he : s.cq_front = s.cq_rear) :
    cq_enqueue s r =
      { s with
        cq_front := 0
        cq_rear := Int.tmod (-1 + 1) s.cq_size
        cq_items := writeAt s.cq_items (Int.tmod (-1 + 1) s.cq_size) r } := by
  unfold cq_enqueue cq_dequeue
  simp only [hc, if_true]
  simp only [he, if_true]

theorem cq_enqueue_of_evict (s : FifoState) (r : Int)
    (hc : (s.cq_front = 0 ∧ s.cq_rear = s.cq_size - 1) ∨ s.cq_front = s.cq_rear + 1)
    (he : ¬ (s.cq_front = s.cq_rear))
    (hf : ¬ (Int.tmod (s.cq_front + 1) s.cq_size = -1)) :
    cq_enqueue s r =
      { s with
        cq_front := Int.tmod (s.cq_front + 1) s.cq_size
        cq_rear := Int.tmod (s.cq_rear + 1) s.cq_size
        cq_items := writeAt s.cq_items (Int.tmod (s.cq_rear + 1) s.cq_size) r } := by
  unfold cq_enqueue cq_dequeue
  simp only [hc, if_true]
  simp only [he, if_false, hf]

theorem cq_enqueue_cases (n : Nat) (hn : 1 ≤ n) (s : FifoState) (r : Int)
    (h : FifoShape n s) :
    ∃ (i : Nat) (f : Int), i < n ∧
      cq_enqueue s r =
        { s with cq_front := f, cq_rear := (i : Int), cq_items := s.cq_items.set i r } ∧
      (f = 0 ∨ (1 ≤ f ∧ f < n ∧ (i : Int) = f - 1)) := by
  obtain ⟨hsz, hlen, hsh⟩ := h
  have h00 : Int.tmod ((-1 : Int) + 1) (n : Int) = ((0 : Nat) : Int) := by
    simp [Int.tmod]
  rcases hsh with ⟨hf, hr⟩ | ⟨hf, hr0, hrn⟩ | ⟨hf1, hfn, hr⟩
  · -- empty queue
    refine ⟨0, 0, by omega, ?_, Or.inl rfl⟩
    rw [cq_enqueue_of_empty s r hf hr, hsz, h00, writeAt_natCast]
  · -- front at 0
    obtain ⟨m, hm⟩ := Int.eq_ofNat_of_zero_le hr0
    have hmn : m < n := by rw [hm] at hrn; exact_mod_cast hrn
    by_cases hfull : m + 1 = n
    · have hc : (s.cq_front = 0 ∧ s.cq_rear = s.cq_size - 1) ∨ s.cq_front = s.cq_rear + 1 :=
        Or.inl ⟨hf, by rw [hm, hsz]; omega⟩
      have hr' : Int.tmod (s.cq_rear + 1) s.cq_size = ((0 : Nat) : Int) := by
        rw [hm, hsz, tmod_succ_of_eq (by omega) (by omega)]; rfl
      by_cases h1 : n = 1
      · -- one slot: the queue empties and refills
        have he : s.cq_front = s.cq_rear := by rw [hf, hm]; omega
        refine ⟨0, 0, by omega, ?_, Or.inl rfl⟩
        rw [cq_enqueue_of_single s r hc he, hsz, h00, writeAt_natCast]
      · have he : ¬ (s.cq_front = s.cq_rear) := by rw [hf, hm]; omega
        have hf' : Int.tmod (s.cq_front + 1) s.cq_size = 1 := by
          rw [hf, hsz]
          exact tmod_succ_of_lt (by omega) (by omega)
        refine ⟨0, 1, by omega, ?_, Or.inr ⟨by omega, by omega, by simp⟩⟩
        rw [cq_enqueue_of_evict s r hc he (by rw [hf']; decide), hf', hr', writeAt_natCast]
    · have hc : ¬ ((s.cq_front = 0 ∧ s.cq_rear = s.cq_size - 1) ∨
          s.cq_front = s.cq_rear + 1) := by
        rw [hf, hm, hsz]
        rintro (⟨_, h⟩ | h) <;> omega
      have hr' : Int.tmod (s.cq_rear + 1) s.cq_size = ((m + 1 : Nat) : Int) := by
        rw [hm, hsz, tmod_succ_of_lt (by omega) (by omega)]; push_cast; rfl
      refine ⟨m + 1, 0, by omega, ?_, Or.inl rfl⟩
      rw [cq_enqueue_of_room s r hc (by rw [hf]; decide), hr', writeAt_natCast, ← hf]
  · -- the front has moved on, the rear is just behind it
    obtain ⟨f, hfe⟩ := Int.eq_ofNat_of_zero_le (by omega : (0 : Int) ≤ s.cq_front)
    have hfn' : f < n := by rw [hfe] at hfn; exact_mod_cast hfn
    have hc : (s.cq_front = 0 ∧ s.cq_rear = s.cq_size - 1) ∨ s.cq_front = s.cq_rear + 1 :=
      Or.inr (by omega)
    have he : ¬ (s.cq_front = s.cq_rear) := by omega
    have hr' : Int.tmod (s.cq_rear + 1) s.cq_size = ((f : Nat) : Int) := by
      rw [hr, hsz, tmod_succ_of_lt (by omega) (by omega)]; omega
    by_cases hlast : f + 1 = n
    · have hf' : Int.tmod (s.cq_front + 1) s.cq_size = 0 := by
        rw [hfe, hsz]
        exact tmod_succ_of_eq (by omega) (by omega)
      refine ⟨f, 0, hfn', ?_, Or.inl rfl⟩
      rw [cq_enqueue_of_evict s r hc he (by rw [hf']; decide), hf', hr', writeAt_natCast]
    · have hf' : Int.tmod (s.cq_front + 1) s.cq_size = (f : Int) + 1 := by
        rw [hfe, hsz]
        exact tmod_succ_of_lt (by omega) (by omega)
      refine ⟨f, (f : Int) + 1, hfn', ?_, Or.inr ⟨by omega, by omega, by omega⟩⟩
      rw [cq_enqueue_of_evict s r hc he (by rw [hf']; omega), hf', hr', writeAt_natCast]

theorem cq_enqueue_shape (n : Nat) (hn : 1 ≤ n) (s : FifoState) (r : Int)
    (h : FifoShape n s) :
    ∃ i : Nat, i < n ∧ (cq_enqueue s r).cq_items = s.cq_items.set i r ∧
      (cq_enqueue s r).cq_rear = (i : Int) ∧ FifoShape n (cq_enqueue s r) := by
  obtain ⟨i, f, hi, he, hf⟩ := cq_enqueue_cases n hn s r h
  obtain ⟨hsz, hlen, _⟩ := h
  rw [he]
  refine ⟨i, hi, rfl, rfl, hsz, ?_, ?_⟩
  · show (s.cq_items.set i r).length = n
    rw [List.length_set]; exact hlen
  · show ((f = -1 ∧ (i : Int) = -1) ∨ (f = 0 ∧ 0 ≤ (i : Int) ∧ (i : Int) < n) ∨
      (1 ≤ f ∧ f < n ∧ (i : Int) = f - 1))
    rcases hf with hf | hf
    · exact Or.inr (Or.inl ⟨hf, by omega, by omega⟩)
    · exact Or.inr (Or.inr hf)

theorem fifoStep_shape (n : Nat) (hn : 1 ≤ n) (s : FifoState) (r : Int)
    (h : FifoShape n s) : FifoShape n (fifoStep n s r) := by
  unfold fifoStep
  split
  · exact h
  · obtain ⟨_, _, _, _, hsh⟩ := cq_enqueue_shape n hn s r h
    exact hsh

theorem fifoLoop_snoc (n : Nat) (refs : List Int) :
    ∀ (fuel j : Nat) (s : FifoState),
      fifoLoop n refs (fuel + 1) j s =
        fifoStep n (fifoLoop n refs fuel j s) (refs.getD (j + fuel) 0) := by
  intro fuel
  induction fuel with
  | zero => intro j s; simp [fifoLoop]
  | succ k ih =>
    intro j s
    rw [fifoLoop, ih (j + 1), fifoLoop]
    congr 2
    omega

theorem lruLoop_snoc (n : Nat) (refs : List Int) :
    ∀ (fuel j : Nat) (s : LruState),
      lruLoop n refs (fuel + 1) j s =
        lruStep n (lruLoop n refs fuel j s) (refs.getD (j + fuel) 0) := by
  intro fuel
  induction fuel with
  | zero => intro j s; simp [lruLoop]
  | succ k ih =>
    intro j s
    rw [lruLoop, ih (j + 1), lruLoop]
    congr 2
    omega

theorem runFIFO_succ (n k : Nat) (refs : List Int) :
    runFIFO n (k + 1) refs = fifoStep n (runFIFO n k refs) (refs.getD k 0) := by
  unfold runFIFO runFIFOFrom
  rw [fifoLoop_snoc, Nat.zero_add]

theorem runLRU_succ (n k : Nat) (refs : List Int) :
    runLRU n (k + 1) refs = lruStep n (runLRU n k refs) (refs.getD k 0) := by
  unfold runLRU runLRUFrom
  rw [lruLoop_snoc, Nat.zero_add]

theorem runFIFO_shape (n : Nat) (hn : 1 ≤ n) (refs : List Int) :
    ∀ k, FifoShape n (runFIFO n k refs) := by
  intro k
  induction k with
  | zero =>
    refine ⟨rfl, ?_, Or.inl ⟨rfl, rfl⟩⟩
    simp [runFIFO, runFIFOFrom, fifoLoop, fifoReset]
  | succ k ih =>
    rw [runFIFO_succ]
    exact fifoStep_shape n hn _ _ ih

/-! ## One step of the LRU engine on an arbitrary array -/

theorem shiftLoop_length (k : Nat) : ∀ items : List Int, (shiftLoop items k).length = items.length := by
  induction k with
  | zero => intro items; rfl
  | succ k ih =>
    intro items
    rw [shiftLoop, ih, List.length_set]

theorem lruStep_length (n : Nat) (s : LruState) (r : Int) :
    (lruStep n s r).arr_items.length = s.arr_items.length := by
  unfold lruStep
  split <;> simp [shiftLoop_length]

theorem runLRU_length (n : Nat) (refs : List Int) :
    ∀ k, (runLRU n k refs).arr_items.length = n := by
  intro k
  induction k with
  | zero => simp [runLRU, runLRUFrom, lruLoop, lruReset]
  | succ k ih => rw [runLRU_succ, lruStep_length, ih]

theorem lruStep_head (n : Nat) (s : LruState) (r : Int) (h : 0 < s.arr_items.length) :
    (lruStep n s r).arr_items[0]? = some r := by
  unfold lruStep
  split
  · show ((shiftLoop s.arr_items _).set 0 r)[0]? = some r
    rw [List.getElem?_set_self (by rw [shiftLoop_length]; exact h)]
  · show ((shiftLoop s.arr_items _).set 0 r)[0]? = some r
    rw [List.getElem?_set_self (by rw [shiftLoop_length]; exact h)]

theorem lruStep_hit_items (n : Nat) (s : LruState) (r : Int) (hlen : s.arr_items.length = n)
    (hm : r ∈ s.arr_items) :
    (lruStep n s r).hit = s.hit + 1 ∧
      (lruStep n s r).arr_items =
        r :: (s.arr_items.take (s.arr_items.indexOf r) ++
          s.arr_items.drop (s.arr_items.indexOf r + 1)) := by
  have hscan := scanLoop_full s.arr_items r
  rw [hlen, if_pos hm] at hscan
  have hi : s.arr_items.indexOf r < s.arr_items.length := List.indexOf_lt_length.mpr hm
  unfold lruStep
  rw [hscan]
  exact ⟨rfl, shiftLoop_set_zero_of_lt r s.arr_items _ hi⟩

theorem move_to_front_getElem? (items : List Int) (r : Int) (i j : Nat)
    (hij : i < j) :
    (r :: (items.take i ++ items.drop (i + 1)))[j]? = items[j]? := by
  obtain ⟨m, rfl⟩ : ∃ m, j = m + 1 := ⟨j - 1, by omega⟩
  rw [List.getElem?_cons_succ]
  by_cases hi : i ≤ items.length
  · have hl : (items.take i).length = i := by rw [List.length_take]; omega
    rw [List.getElem?_append_right (by omega), hl, List.getElem?_drop]
    congr 1
    omega
  · have h1 : items.take i = items := List.take_of_length_le (by omega)
    have h2 : items.drop (i + 1) = [] := List.drop_of_length_le (by omega)
    rw [h1, h2, List.append_nil, List.getElem?_eq_none (by omega),
      List.getElem?_eq_none (by omega)]

theorem move_to_front_perm (items : List Int) (r : Int) (hm : r ∈ items) :
    (r :: (items.take (items.indexOf r) ++ items.drop (items.indexOf r + 1))).Perm items := by
  have hi : items.indexOf r < items.length := List.indexOf_lt_length.mpr hm
  have hget : items[items.indexOf r] = r := List.getElem_indexOf hi
  have hsplit : items =
      items.take (items.indexOf r) ++ r :: items.drop (items.indexOf r + 1) := by
    conv_lhs => rw [← List.take_append_drop (items.indexOf r) items,
      List.drop_eq_getElem_cons hi, hget]
  conv_rhs => rw [hsplit]
  exact List.perm_middle.symm

/-! ## Counting hits against the distinct identifiers of a stream -/

theorem card_snoc (pre : List Int) (r : Int) :
    (pre ++ [r]).toFinset.card = pre.toFinset.card + if r ∈ pre then 0 else 1 := by
  have h : (pre ++ [r]).toFinset = insert r pre.toFinset := by
    ext x
    simp [or_comm]
  rw [h]
  by_cases hr : r ∈ pre
  · rw [Finset.card_insert_of_mem (List.mem_toFinset.mpr hr), if_pos hr]
    rfl
  · rw [Finset.card_insert_of_not_mem (fun h => hr (List.mem_toFinset.mp h)), if_neg hr]

theorem card_take_le (refs : List Int) (k : Nat) :
    (refs.take k).toFinset.card ≤ refs.toFinset.card := by
  apply Finset.card_le_card
  intro x hx
  exact List.mem_toFinset.mpr (List.mem_of_mem_take (List.mem_toFinset.mp hx))

theorem hits_le_of_resident_subset (h : List Int → Int) (R : List Int → List Int)
    (h0 : h [] = 0)
    (hs : ∀ pre r, h (pre ++ [r]) = h pre + if r ∈ R pre then 1 else 0)
    (hsub : ∀ pre x, x ∈ R pre → x ∈ pre) :
    ∀ pre : List Int, h pre + pre.toFinset.card ≤ pre.length := by
  intro pre
  induction pre using List.reverseRecOn with
  | nil => simp [h0]
  | append_singleton pre r ih =>
    rw [hs, card_snoc, List.length_append, List.length_singleton]
    by_cases hr : r ∈ R pre
    · rw [if_pos hr, if_pos (hsub pre r hr)]
      push_cast
      omega
    · rw [if_neg hr]
      split <;> push_cast <;> omega

theorem hits_eq_of_resident_all (c : Nat) (h : List Int → Int) (R : List Int → List Int)
    (h0 : h [] = 0)
    (hs : ∀ pre r, h (pre ++ [r]) = h pre + if r ∈ R pre then 1 else 0)
    (hsub : ∀ pre x, x ∈ R pre → x ∈ pre)
    (hfull : ∀ pre, pre.toFinset.card ≤ c → ∀ x ∈ pre, x ∈ R pre) :
    ∀ pre : List Int, pre.toFinset.card ≤ c → h pre + pre.toFinset.card = pre.length := by
  intro pre
  induction pre using List.reverseRecOn with
  | nil => intro _; simp [h0]
  | append_singleton pre r ih =>
    intro hcard
    have hle : pre.toFinset.card ≤ c := by
      have := card_snoc pre r
      omega
    have ih' := ih hle
    rw [hs, card_snoc, List.length_append, List.length_singleton]
    by_cases hr : r ∈ pre
    · rw [if_pos (hfull pre hle r hr), if_pos hr]
      push_cast
      omega
    · rw [if_neg (fun h => hr (hsub pre r h)), if_neg hr]
      push_cast
      omega

theorem fifoModel_subset (n : Nat) (pre : List Int) :
    ∀ x, x ∈ (fifoModel n pre).1 → x ∈ pre := by
  induction pre using List.reverseRecOn with
  | nil => intro x hx; simp [fifoModel] at hx
  | append_singleton pre r ih =>
    intro x hx
    rw [fifoModel_snoc] at hx
    unfold fifoModelStep at hx
    rw [List.mem_append]
    split at hx
    · exact Or.inl (ih x hx)
    · rw [List.mem_append] at hx
      rcases hx with hx | hx
      · split at hx
        · exact Or.inl (ih x (List.mem_of_mem_tail hx))
        · exact Or.inl (ih x hx)
      · exact Or.inr hx

theorem fifoModel_all_resident (n : Nat) (hn : 1 ≤ n) (pre : List Int) :
    pre.toFinset.card ≤ n → ∀ x ∈ pre, x ∈ (fifoModel n pre).1 := by
  induction pre using List.reverseRecOn with
  | nil => intro _ x hx; simp at hx
  | append_singleton pre r ih =>
    intro hcard x hx
    have hsnoc := card_snoc pre r
    have ih' := ih (by omega)
    rw [fifoModel_snoc]
    unfold fifoModelStep
    by_cases hr : r ∈ (fifoModel n pre).1
    · rw [if_pos hr]
      rcases List.mem_append.mp hx with h | h
      · exact ih' x h
      · rw [List.mem_singleton.mp h]; exact hr
    · rw [if_neg hr]
      have hrpre : r ∉ pre := fun h => hr (ih' r h)
      rw [if_neg hrpre] at hsnoc
      -- the queue holds every identifier of the prefix once, so it is not full
      have hlen : (fifoModel n pre).1.length = pre.toFinset.card := by
        rw [← List.toFinset_card_of_nodup (fifoModel_inv n hn pre).1]
        congr 1
        ext y
        simp only [List.mem_toFinset]
        exact ⟨fifoModel_subset n pre y, ih' y⟩
      have hnf : ¬ ((fifoModel n pre).1.length = n) := by omega
      rw [if_neg hnf, List.mem_append]
      rcases List.mem_append.mp hx with h | h
      · exact Or.inl (ih' x h)
      · exact Or.inr h

theorem lruModel_subset (n : Nat) (hn : 1 ≤ n) (pre : List Int) :
    ∀ x, x ∈ (lruModel n pre).1 → x ∈ pre := by
  intro x hx
  rw [lruModel_list n hn] at hx
  exact (mem_mruOrder pre x).mp (List.mem_of_mem_take hx)

theorem lruModel_all_resident (n : Nat) (hn : 1 ≤ n) (pre : List Int) :
    pre.toFinset.card ≤ n → ∀ x ∈ pre, x ∈ (lruModel n pre).1 := by
  intro hcard x hx
  rw [lruModel_list n hn, List.take_of_length_le (by rw [mruOrder_length]; exact hcard)]
  exact (mem_mruOrder pre x).mpr hx

/-! ## LRU inclusion -/

theorem lruModel_hits_mono (c : Nat) (hc : 1 ≤ c) (pre : List Int) :
    (lruModel c pre).2 ≤ (lruModel (c + 1) pre).2 := by
  induction pre using List.reverseRecOn with
  | nil => simp [lruModel]
  | append_singleton pre r ih =>
    rw [lruModel_hits_snoc, lruModel_hits_snoc]
    by_cases hr : r ∈ (lruModel c pre).1
    · have hr' : r ∈ (lruModel (c + 1) pre).1 := by
        rw [lruModel_list c hc] at hr
        rw [lruModel_list (c + 1) (by omega)]
        have : (mruOrder pre).take c = ((mruOrder pre).take (c + 1)).take c := by
          rw [List.take_take]; congr 1; omega
        rw [this] at hr
        exact List.mem_of_mem_take hr
      rw [if_pos hr, if_pos hr']
      omega
    · rw [if_neg hr]
      split <;> omega

theorem padded_take_succ (L : List Int) (c : Nat) :
    (L.take (c + 1) ++ List.replicate (c + 1 - (L.take (c + 1)).length) (-1)).take c =
      L.take c ++ List.replicate (c - (L.take c).length) (-1) := by
  rw [List.take_append_eq_append_take, List.take_take, List.take_replicate,
    List.length_take, List.length_take]
  have h1 : min c (c + 1) = c := by omega
  rw [h1]
  congr 2
  omega

/-! ## The claims -/

set_option maxRecDepth 100000 in
/-- C1 (the code at the failing input): on the sample stream of the header
comment with `sizeOfCache = 8`, that is for
`./CacheAlgo 8 32 F 1 2 3 1 4 2 12 5 3 6 8 11 9 12 10 7 1 9 5 7`, the FIFO
engine ends with `hit = 7` and prints `7/20`, not the `10/20` that Sample
Output 1 of the header comment states.  The final buffer holds
`11 9 10 7 1 5 6 8` with `cq_front = 5`, `cq_rear = 4`, and the reference
FIFO queue model counts the same 7 hits. -/
theorem C1_sample_fifo_seven :
    reportFIFO 8 20 sampleRefs = { hit := 7, total := 20 } ∧
      runFIFO 8 20 sampleRefs =
        { cq_items := [11, 9, 10, 7, 1, 5, 6, 8], cq_size := 8, cq_front := 5,
          cq_rear := 4, hit := 7 } ∧
      fifoModel 8 sampleRefs = ([5, 6, 8, 11, 9, 10, 7, 1], 7) ∧
      main atoiDecimal
          ["./CacheAlgo", "8", "32", "F", "1", "2", "3", "1", "4", "2", "12", "5", "3", "6",
            "8", "11", "9", "12", "10", "7", "1", "9", "5", "7"] =
        [Line.hitRatio { hit := 7, total := 20 }] ∧
      ¬ ((reportFIFO 8 20 sampleRefs).hit = 10 ∧ (reportFIFO 8 20 sampleRefs).total = 20) := by
  decide

set_option maxRecDepth 100000 in
/-- C2 (the code at the failing input): on the sample stream of the header
comment with `sizeOfCache = 8`, that is for
`./CacheAlgo 8 32 L 1 2 3 1 4 2 12 5 3 6 8 11 9 12 10 7 1 9 5 7`, the LRU
engine ends with `hit = 6` and prints `6/20`, not the `11/20` that Sample
Output 2 of the header comment states.  The final array holds
`7 5 9 1 10 12 11 8`, and the reference LRU list model counts the same 6
hits. -/
theorem C2_sample_lru_six :
    reportLRU 8 20 sampleRefs = { hit := 6, total := 20 } ∧
      runLRU 8 20 sampleRefs =
        { arr_items := [7, 5, 9, 1, 10, 12, 11, 8], arr_size := 8, hit := 6 } ∧
      lruModel 8 sampleRefs = ([7, 5, 9, 1, 10, 12, 11, 8], 6) ∧
      main atoiDecimal
          ["./CacheAlgo", "8", "32", "L", "1", "2", "3", "1", "4", "2", "12", "5", "3", "6",
            "8", "11", "9", "12", "10", "7", "1", "9", "5", "7"] =
        [Line.hitRatio { hit := 6, total := 20 }] ∧
      ¬ ((reportLRU 8 20 sampleRefs).hit = 11 ∧ (reportLRU 8 20 sampleRefs).total = 20) := by
  decide

/-- C3: for both engines, every cache size and every reference stream (in
particular every valid configuration) the final hit counter lies between `0`
and `numberOfReferences`, and the reported total is the length of the
stream. -/
theorem C3_hit_between_zero_and_total (sizeOfCache : Nat) (references : List Int) :
    (0 ≤ (reportFIFO sizeOfCache references.length references).hit ∧
      (reportFIFO sizeOfCache references.length references).hit ≤
        (reportFIFO sizeOfCache references.length references).total ∧
      (reportFIFO sizeOfCache references.length references).total = references.length) ∧
    (0 ≤ (reportLRU sizeOfCache references.length references).hit ∧
      (reportLRU sizeOfCache references.length references).hit ≤
        (reportLRU sizeOfCache references.length references).total ∧
      (reportLRU sizeOfCache references.length references).total = references.length) := by
  have hf := fifoLoop_hit sizeOfCache references references.length 0
    (fifoReset sizeOfCache fifoGlobals)
  have hl := lruLoop_hit sizeOfCache references references.length 0
    (lruReset sizeOfCache lruGlobals)
  simp only [reportFIFO, reportLRU, runFIFO, runFIFOFrom, runLRU, runLRUFrom]
  simp only [fifoReset, lruReset] at hf hl ⊢
  refine ⟨⟨?_, ?_, ?_⟩, ⟨?_, ?_, ?_⟩⟩ <;> first | trivial | omega

/-- C4: for every `sizeOfCache >= 1` and every stream of non-negative
references the hit count of `runFIFO` is the hit count of the reference FIFO
queue model.  Moreover, after every number `k` of processed references the
scan of `cq_items` finds exactly the identifiers in the model queue, and an
identifier `x` that is not resident after `k` references (in particular one
that has been evicted) and is next referenced at position `j` is a miss
there: the hit counter is the same before and after reference `j`. -/
theorem C4_fifo_refines_queue_model (sizeOfCache : Nat) (references : List Int)
    (hc : 1 ≤ sizeOfCache) (hr : ∀ r ∈ references, (0 : Int) ≤ r) :
    (runFIFO sizeOfCache references.length references).hit =
        (fifoModel sizeOfCache references).2 ∧
    (∀ k x, k ≤ references.length → (0 : Int) ≤ x →
        (x ∈ (runFIFO sizeOfCache k references).cq_items ↔
          x ∈ (fifoModel sizeOfCache (references.take k)).1)) ∧
    (∀ k j x, k ≤ j → references[j]? = some x →
        x ∉ (runFIFO sizeOfCache k references).cq_items →
        (∀ i, k ≤ i → i < j → references[i]? ≠ some x) →
        (runFIFO sizeOfCache (j + 1) references).hit =
          (runFIFO sizeOfCache j references).hit) := by
  have hrel : ∀ k, k ≤ references.length →
      FifoRel sizeOfCache (runFIFO sizeOfCache k references)
        (fifoModel sizeOfCache (references.take k)) :=
    fun k hk => fifoRel_run sizeOfCache k hc fifoGlobals references hk hr
  refine ⟨?_, ?_, ?_⟩
  · have h := (hrel references.length (le_refl _)).2.1
    rwa [List.take_length] at h
  · intro k x hk hx
    exact fifoRel_mem (hrel k hk) hx
  · intro k j x hkj hj hx hmid
    have hjlt : j < references.length := by
      by_contra hcon
      rw [List.getElem?_eq_none (by omega)] at hj
      exact Option.noConfusion hj
    have hxj : x = references[j] := by
      rw [List.getElem?_eq_getElem hjlt] at hj
      exact (Option.some.inj hj).symm
    have hx0 : (0 : Int) ≤ x := hr x (hxj ▸ List.getElem_mem _)
    -- `x` is not in the model queue after `k` references, nor after `j`
    have hnk : x ∉ (fifoModel sizeOfCache (references.take k)).1 :=
      fun h => hx ((fifoRel_mem (hrel k (by omega)) hx0).mpr h)
    have hsplit : references.take j = references.take k ++ (references.drop k).take (j - k) := by
      have : j = k + (j - k) := by omega
      conv_lhs => rw [this, List.take_add]
    have hnotmid : x ∉ (references.drop k).take (j - k) := by
      intro hmem
      obtain ⟨i, hi, hget⟩ := List.getElem_of_mem hmem
      rw [List.length_take, List.length_drop] at hi
      apply hmid (k + i) (by omega) (by omega)
      rw [← hget, List.getElem_take, List.getElem_drop, List.getElem?_eq_getElem]
    have hnj : x ∉ (fifoModel sizeOfCache (references.take j)).1 := by
      rw [hsplit]
      exact fifoModel_not_mem_append _ _ _ hnk _ hnotmid
    have h1 := (hrel (j + 1) (by omega)).2.1
    have h2 := (hrel j (by omega)).2.1
    rw [h1, h2, List.take_succ, List.getElem?_eq_getElem hjlt, Option.toList_some,
      fifoModel_snoc, ← hxj]
    simp [fifoModelStep, hnj]

set_option maxRecDepth 100000 in
/-- Witness for C4 on the sample stream with four cache blocks. -/
theorem C4_fifo_refines_queue_model_witness :
    1 ≤ 4 ∧ (∀ r ∈ sampleRefs, (0 : Int) ≤ r) ∧
    (runFIFO 4 sampleRefs.length sampleRefs).hit = (fifoModel 4 sampleRefs).2 ∧
    (∀ k x, k ≤ sampleRefs.length → (0 : Int) ≤ x →
        (x ∈ (runFIFO 4 k sampleRefs).cq_items ↔
          x ∈ (fifoModel 4 (sampleRefs.take k)).1)) ∧
    (∀ k j x, k ≤ j → sampleRefs[j]? = some x →
        x ∉ (runFIFO 4 k sampleRefs).cq_items →
        (∀ i, k ≤ i → i < j → sampleRefs[i]? ≠ some x) →
        (runFIFO 4 (j + 1) sampleRefs).hit = (runFIFO 4 j sampleRefs).hit) :=
  ⟨by decide, by decide, C4_fifo_refines_queue_model 4 sampleRefs (by decide) (by decide)⟩

/-- C5: for every `sizeOfCache >= 1` and every stream of non-negative
references the hit count of `runLRU` is the hit count of the reference LRU
list model, and after every number `k` of processed references `arr_items`
is the model list followed by empty markers. -/
theorem C5_lru_refines_list_model (sizeOfCache : Nat) (references : List Int)
    (hc : 1 ≤ sizeOfCache) (hr : ∀ r ∈ references, (0 : Int) ≤ r) :
    (runLRU sizeOfCache references.length references).hit =
        (lruModel sizeOfCache references).2 ∧
    (∀ k, k ≤ references.length →
        (runLRU sizeOfCache k references).arr_items =
          (lruModel sizeOfCache (references.take k)).1 ++
            List.replicate
              (sizeOfCache - (lruModel sizeOfCache (references.take k)).1.length) (-1)) := by
  have hrel : ∀ k, k ≤ references.length →
      LruRel sizeOfCache (runLRU sizeOfCache k references)
        (lruModel sizeOfCache (references.take k)) :=
    fun k hk => lruRel_run sizeOfCache k hc lruGlobals references hk hr
  refine ⟨?_, ?_⟩
  · have h := (hrel references.length (le_refl _)).1
    rwa [List.take_length] at h
  · intro k hk
    exact (hrel k hk).2.2.2

set_option maxRecDepth 100000 in
/-- Witness for C5 on the sample stream with four cache blocks. -/
theorem C5_lru_refines_list_model_witness :
    1 ≤ 4 ∧ (∀ r ∈ sampleRefs, (0 : Int) ≤ r) ∧
    (runLRU 4 sampleRefs.length sampleRefs).hit = (lruModel 4 sampleRefs).2 ∧
    (∀ k, k ≤ sampleRefs.length →
        (runLRU 4 k sampleRefs).arr_items =
          (lruModel 4 (sampleRefs.take k)).1 ++
            List.replicate (4 - (lruModel 4 (sampleRefs.take k)).1.length) (-1)) :=
  ⟨by decide, by decide, C5_lru_refines_list_model 4 sampleRefs (by decide) (by decide)⟩

/-- C6: in `runLRU`, after any number `k` of processed non-negative
references (`sizeOfCache >= 1`): `arr_items` keeps its `sizeOfCache` slots;
of two occupied slots the one at the smaller index holds the identifier
whose last occurrence in the processed prefix is later; the occupied slots
are exactly the positions below `min(sizeOfCache, d)`, `d` the number of
distinct identifiers of the prefix; and every identifier of the prefix that
is not resident was last referenced before every resident one.  So the
residents are the `min(sizeOfCache, d)` most recently referenced distinct
identifiers, in order of recency. -/
theorem C6_lru_resident_in_recency_order (sizeOfCache : Nat) (references : List Int)
    (hc : 1 ≤ sizeOfCache) (hr : ∀ r ∈ references, (0 : Int) ≤ r)
    (k : Nat) (hk : k ≤ references.length) :
    (runLRU sizeOfCache k references).arr_items.length = sizeOfCache ∧
    (∀ (i j : Nat) (a b : Int), i < j →
        (runLRU sizeOfCache k references).arr_items[i]? = some a →
        (runLRU sizeOfCache k references).arr_items[j]? = some b →
        a ≠ -1 → b ≠ -1 → MoreRecent (references.take k) a b) ∧
    (∀ i, i < sizeOfCache →
        ((runLRU sizeOfCache k references).arr_items[i]? ≠ some (-1) ↔
          i < min sizeOfCache (references.take k).toFinset.card)) ∧
    (∀ x ∈ references.take k, x ∉ (runLRU sizeOfCache k references).arr_items →
        ∀ a ∈ (runLRU sizeOfCache k references).arr_items, a ≠ -1 →
          MoreRecent (references.take k) a x) := by
  have hrel := lruRel_run sizeOfCache k hc lruGlobals references hk hr
  have hlen := lruRel_length hrel
  obtain ⟨_, hnn, _, hitems⟩ := hrel
  have hl := lruModel_list sizeOfCache hc (references.take k)
  rw [hl] at hnn hitems
  have hpw := mruOrder_pairwise (references.take k)
  have hcard := mruOrder_length (references.take k)
  have hmemL := mem_mruOrder (references.take k)
  change (runLRU sizeOfCache k references).arr_items = _ at hitems
  change (runLRU sizeOfCache k references).arr_items.length = _ at hlen
  generalize (runLRU sizeOfCache k references).arr_items = items at hitems hlen ⊢
  generalize mruOrder (references.take k) = L at hnn hitems hpw hcard hmemL
  have hne : ∀ x ∈ L.take sizeOfCache, x ≠ -1 := by
    intro x hx h
    have := hnn x hx
    omega
  refine ⟨hlen, ?_, ?_, ?_⟩
  · intro i j a b hij hi hj ha hb
    rw [hitems] at hi hj
    obtain ⟨hi', hai⟩ := List.getElem?_eq_some.mp (getElem?_padded _ _ _ _ hi ha)
    obtain ⟨hj', hbj⟩ := List.getElem?_eq_some.mp (getElem?_padded _ _ _ _ hj hb)
    have hpw' : (L.take sizeOfCache).Pairwise (MoreRecent (references.take k)) :=
      hpw.sublist (List.take_sublist _ _)
    have := List.pairwise_iff_getElem.mp hpw' i j hi' hj' hij
    rwa [hai, hbj] at this
  · intro i hi
    have hlt : (L.take sizeOfCache).length = min sizeOfCache (references.take k).toFinset.card := by
      rw [List.length_take, hcard]
    rw [← hlt, hitems]
    constructor
    · intro h
      by_contra hge
      apply h
      rw [List.getElem?_append_right (by omega), List.getElem?_replicate]
      rw [if_pos (by omega)]
    · intro h
      rw [List.getElem?_append_left h, List.getElem?_eq_getElem h]
      intro heq
      exact hne _ (List.getElem_mem h) (Option.some.inj heq)
  · intro x hx hxn a ha hane
    rw [hitems] at hxn ha
    have hxL : x ∈ L := (hmemL x).mpr hx
    have hx1 : x ∉ L.take sizeOfCache := fun h => hxn (List.mem_append_left _ h)
    have hx2 : x ∈ L.drop sizeOfCache := by
      rw [← List.take_append_drop sizeOfCache L, List.mem_append] at hxL
      exact hxL.resolve_left hx1
    have ha1 : a ∈ L.take sizeOfCache := by
      rcases List.mem_append.mp ha with h | h
      · exact h
      · exact absurd (List.eq_of_mem_replicate h) hane
    rw [← List.take_append_drop sizeOfCache L, List.pairwise_append] at hpw
    exact hpw.2.2 a ha1 x hx2

set_option maxRecDepth 100000 in
/-- Witness for C6: the sample stream, four cache blocks, all twenty
references processed. -/
theorem C6_lru_resident_in_recency_order_witness :
    1 ≤ 4 ∧ (∀ r ∈ sampleRefs, (0 : Int) ≤ r) ∧ 20 ≤ sampleRefs.length ∧
    (runLRU 4 20 sampleRefs).arr_items.length = 4 ∧
    (∀ (i j : Nat) (a b : Int), i < j →
        (runLRU 4 20 sampleRefs).arr_items[i]? = some a →
        (runLRU 4 20 sampleRefs).arr_items[j]? = some b →
        a ≠ -1 → b ≠ -1 → MoreRecent (sampleRefs.take 20) a b) ∧
    (∀ i, i < 4 →
        ((runLRU 4 20 sampleRefs).arr_items[i]? ≠ some (-1) ↔
          i < min 4 (sampleRefs.take 20).toFinset.card)) ∧
    (∀ x ∈ sampleRefs.take 20, x ∉ (runLRU 4 20 sampleRefs).arr_items →
        ∀ a ∈ (runLRU 4 20 sampleRefs).arr_items, a ≠ -1 →
          MoreRecent (sampleRefs.take 20) a x) :=
  ⟨by decide, by decide, by decide,
    C6_lru_resident_in_recency_order 4 sampleRefs (by decide) (by decide) 20 (by decide)⟩

/-- C7: for both engines, `sizeOfCache >= 1` and non-negative references,
after any number `k` of processed references two different slots of
`cq_items` (respectively `arr_items`) that do not hold the empty marker `-1`
hold different identifiers. -/
theorem C7_resident_identifiers_distinct (sizeOfCache : Nat) (references : List Int)
    (hc : 1 ≤ sizeOfCache) (hr : ∀ r ∈ references, (0 : Int) ≤ r)
    (k : Nat) (hk : k ≤ references.length) :
    (∀ (i j : Nat) (a b : Int), i < j →
        (runFIFO sizeOfCache k references).cq_items[i]? = some a →
        (runFIFO sizeOfCache k references).cq_items[j]? = some b →
        a ≠ -1 → b ≠ -1 → a ≠ b) ∧
    (∀ (i j : Nat) (a b : Int), i < j →
        (runLRU sizeOfCache k references).arr_items[i]? = some a →
        (runLRU sizeOfCache k references).arr_items[j]? = some b →
        a ≠ -1 → b ≠ -1 → a ≠ b) := by
  constructor
  · have hrel := fifoRel_run sizeOfCache k hc fifoGlobals references hk hr
    have hnd := (fifoModel_inv sizeOfCache hc (references.take k)).1
    obtain ⟨_, _, _, hA | ⟨A, B, _, hi, hq, _, _⟩⟩ := hrel
    · intro i j a b hij hi hj ha hb
      change (runFIFO sizeOfCache k references).cq_items[i]? = _ at hi
      change (runFIFO sizeOfCache k references).cq_items[j]? = _ at hj
      have hitems : (runFIFO sizeOfCache k references).cq_items = _ := hA.2.1
      rw [hitems] at hi hj
      exact nodup_getElem?_ne _ hnd i j a b hij (getElem?_padded _ _ _ _ hi ha)
        (getElem?_padded _ _ _ _ hj hb)
    · intro i j a b hij hi' hj' _ _
      have hitems : (runFIFO sizeOfCache k references).cq_items = A ++ B := hi
      rw [hitems] at hi' hj'
      rw [hq, List.nodup_append_comm] at hnd
      exact nodup_getElem?_ne _ hnd i j a b hij hi' hj'
  · have hrel := lruRel_run sizeOfCache k hc lruGlobals references hk hr
    obtain ⟨_, _, _, hitems⟩ := hrel
    have hnd : (lruModel sizeOfCache (references.take k)).1.Nodup := by
      rw [lruModel_list sizeOfCache hc]
      exact (mruOrder_nodup _).sublist (List.take_sublist _ _)
    intro i j a b hij hi hj ha hb
    have hitems' : (runLRU sizeOfCache k references).arr_items = _ := hitems
    rw [hitems'] at hi hj
    exact nodup_getElem?_ne _ hnd i j a b hij (getElem?_padded _ _ _ _ hi ha)
      (getElem?_padded _ _ _ _ hj hb)

set_option maxRecDepth 100000 in
/-- Witness for C7: the sample stream, four cache blocks, all twenty
references processed. -/
theorem C7_resident_identifiers_distinct_witness :
    1 ≤ 4 ∧ (∀ r ∈ sampleRefs, (0 : Int) ≤ r) ∧ 20 ≤ sampleRefs.length ∧
    (∀ (i j : Nat) (a b : Int), i < j →
        (runFIFO 4 20 sampleRefs).cq_items[i]? = some a →
        (runFIFO 4 20 sampleRefs).cq_items[j]? = some b →
        a ≠ -1 → b ≠ -1 → a ≠ b) ∧
    (∀ (i j : Nat) (a b : Int), i < j →
        (runLRU 4 20 sampleRefs).arr_items[i]? = some a →
        (runLRU 4 20 sampleRefs).arr_items[j]? = some b →
        a ≠ -1 → b ≠ -1 → a ≠ b) :=
  ⟨by decide, by decide, by decide,
    C7_resident_identifiers_distinct 4 sampleRefs (by decide) (by decide) 20 (by decide)⟩

/-- C8: in the FIFO engine, `sizeOfCache >= 1` and non-negative references,
after any number `k` of processed references: `cq_items` keeps its
`sizeOfCache` slots; the circular span from `cq_front` to `cq_rear` is the
number of slots that do not hold the empty marker, is at most `sizeOfCache`
and equals `min(sizeOfCache, misses so far)`, the misses being `k - hit`; and
from the first reference on (the first reference always enqueues)
`cq_front` and `cq_rear` are indices of the array, so the write
`cq_items[cq_rear]` of every enqueue is in bounds. -/
theorem C8_fifo_span_bounded (sizeOfCache : Nat) (references : List Int)
    (hc : 1 ≤ sizeOfCache) (hr : ∀ r ∈ references, (0 : Int) ≤ r)
    (k : Nat) (hk : k ≤ references.length) :
    (runFIFO sizeOfCache k references).cq_items.length = sizeOfCache ∧
    (((runFIFO sizeOfCache k references).cq_items.filter (fun x => x != -1)).length : Int) =
      residentSpan (runFIFO sizeOfCache k references) ∧
    residentSpan (runFIFO sizeOfCache k references) ≤ sizeOfCache ∧
    residentSpan (runFIFO sizeOfCache k references) =
      min (sizeOfCache : Int) ((k : Int) - (runFIFO sizeOfCache k references).hit) ∧
    (1 ≤ k →
      1 ≤ (k : Int) - (runFIFO sizeOfCache k references).hit ∧
      0 ≤ (runFIFO sizeOfCache k references).cq_front ∧
      (runFIFO sizeOfCache k references).cq_front < sizeOfCache ∧
      0 ≤ (runFIFO sizeOfCache k references).cq_rear ∧
      (runFIFO sizeOfCache k references).cq_rear < sizeOfCache) := by
  have hrel := fifoRel_run sizeOfCache k hc fifoGlobals references hk hr
  change FifoRel sizeOfCache (runFIFO sizeOfCache k references) _ at hrel
  obtain ⟨_, _, h3, h4⟩ := fifoModel_inv sizeOfCache hc (references.take k)
  have hspan := fifoRel_span hrel
  have hocc := fifoRel_occupied hrel
  have hhit := hrel.2.1
  have hlen : (references.take k).length = k := by
    rw [List.length_take]; omega
  rw [hlen] at h3 h4
  refine ⟨fifoRel_length hrel, ?_, ?_, ?_, ?_⟩
  · rw [hspan, hocc]
  · rw [hspan, h4]; omega
  · rw [hspan, h4, hhit]
  · intro hk1
    have hne : (fifoModel sizeOfCache (references.take k)).1 ≠ [] := by
      obtain ⟨j, rfl⟩ : ∃ j, k = j + 1 := ⟨k - 1, by omega⟩
      have hj : j < references.length := by omega
      rw [List.take_succ, List.getElem?_eq_getElem hj, Option.toList_some]
      exact List.ne_nil_of_mem (fifoModel_last_mem sizeOfCache _ _)
    have hpos : 0 < (fifoModel sizeOfCache (references.take k)).1.length :=
      List.length_pos.mpr hne
    refine ⟨?_, fifoRel_bounds hrel hne⟩
    rw [hhit]
    omega

set_option maxRecDepth 100000 in
/-- Witness for C8: the sample stream, four cache blocks, all twenty
references processed. -/
theorem C8_fifo_span_bounded_witness :
    1 ≤ 4 ∧ (∀ r ∈ sampleRefs, (0 : Int) ≤ r) ∧ 20 ≤ sampleRefs.length ∧
    (runFIFO 4 20 sampleRefs).cq_items.length = 4 ∧
    (((runFIFO 4 20 sampleRefs).cq_items.filter (fun x => x != -1)).length : Int) =
      residentSpan (runFIFO 4 20 sampleRefs) ∧
    residentSpan (runFIFO 4 20 sampleRefs) ≤ (4 : Nat) ∧
    residentSpan (runFIFO 4 20 sampleRefs) =
      min ((4 : Nat) : Int) (((20 : Nat) : Int) - (runFIFO 4 20 sampleRefs).hit) ∧
    (1 ≤ 20 →
      1 ≤ ((20 : Nat) : Int) - (runFIFO 4 20 sampleRefs).hit ∧
      0 ≤ (runFIFO 4 20 sampleRefs).cq_front ∧
      (runFIFO 4 20 sampleRefs).cq_front < (4 : Nat) ∧
      0 ≤ (runFIFO 4 20 sampleRefs).cq_rear ∧
      (runFIFO 4 20 sampleRefs).cq_rear < (4 : Nat)) :=
  ⟨by decide, by decide, by decide,
    C8_fifo_span_bounded 4 sampleRefs (by decide) (by decide) 20 (by decide)⟩

/-- C9: with `sizeOfCache = 1` and non-negative references `runFIFO` and
`runLRU` produce the same hit count, after the whole stream and after every
prefix of it; in both the first reference is a miss and every later
reference is a hit exactly when it equals the reference just before it. -/
theorem C9_single_block_engines_agree (references : List Int)
    (hr : ∀ r ∈ references, (0 : Int) ≤ r) :
    (runFIFO 1 references.length references).hit =
        (runLRU 1 references.length references).hit ∧
    (∀ k, k ≤ references.length →
        (runFIFO 1 k references).hit = (runLRU 1 k references).hit) ∧
    (1 ≤ references.length →
        (runFIFO 1 1 references).hit = 0 ∧ (runLRU 1 1 references).hit = 0) ∧
    (∀ k, k + 1 < references.length →
        (runFIFO 1 (k + 2) references).hit =
          (runFIFO 1 (k + 1) references).hit +
            (if references[k + 1]? = references[k]? then 1 else 0) ∧
        (runLRU 1 (k + 2) references).hit =
          (runLRU 1 (k + 1) references).hit +
            (if references[k + 1]? = references[k]? then 1 else 0)) := by
  have hF : ∀ k, k ≤ references.length →
      (runFIFO 1 k references).hit = (fifoModel 1 (references.take k)).2 :=
    fun k hk => (fifoRel_run 1 k (le_refl 1) fifoGlobals references hk hr).2.1
  have hL : ∀ k, k ≤ references.length →
      (runLRU 1 k references).hit = (lruModel 1 (references.take k)).2 :=
    fun k hk => (lruRel_run 1 k (le_refl 1) lruGlobals references hk hr).1
  have hagree : ∀ k, k ≤ references.length →
      (runFIFO 1 k references).hit = (runLRU 1 k references).hit := by
    intro k hk
    rw [hF k hk, hL k hk, (models_one _).1]
  have hstep : ∀ k (hk : k < references.length),
      (runFIFO 1 (k + 1) references).hit =
        (runFIFO 1 k references).hit +
          (if (references.take k).getLast? = some references[k] then 1 else 0) := by
    intro k hk
    rw [hF (k + 1) (by omega), hF k (by omega), List.take_succ,
      List.getElem?_eq_getElem hk, Option.toList_some, fifoModel_hits_snoc,
      (models_one _).2]
    congr 1
    cases hlast : (references.take k).getLast? with
    | none => simp
    | some y =>
      by_cases hy : y = references[k]
      · simp [hy]
      · have hy' : ¬ references[k] = y := fun h => hy h.symm
        simp [hy, hy']
  refine ⟨hagree _ (le_refl _), hagree, ?_, ?_⟩
  · intro h1
    have h0 : (runFIFO 1 1 references).hit = 0 := by
      have := hstep 0 (by omega)
      rw [hF 0 (by omega)] at this
      simpa [fifoModel] using this
    exact ⟨h0, by rw [← hagree 1 h1]; exact h0⟩
  · intro k hk
    have hlast : (references.take (k + 1)).getLast? = some (references[k]) := by
      rw [List.take_succ, List.getElem?_eq_getElem (by omega), Option.toList_some,
        List.getLast?_append]
      simp
    have h1 := hstep (k + 1) hk
    rw [hlast] at h1
    have hcond : (some references[k] = some references[k + 1]) ↔
        (references[k + 1]? = references[k]?) := by
      rw [List.getElem?_eq_getElem hk, List.getElem?_eq_getElem (by omega : k < references.length)]
      exact eq_comm
    have h2 : (runFIFO 1 (k + 2) references).hit =
        (runFIFO 1 (k + 1) references).hit +
          (if references[k + 1]? = references[k]? then 1 else 0) := by
      rw [h1]
      congr 1
      exact if_congr hcond rfl rfl
    refine ⟨h2, ?_⟩
    rw [← hagree (k + 2) (by omega), ← hagree (k + 1) (by omega)]
    exact h2

set_option maxRecDepth 100000 in
/-- Witness for C9 on the stream `3 3 4 4 3`. -/
theorem C9_single_block_engines_agree_witness :
    (∀ r ∈ ([3, 3, 4, 4, 3] : List Int), (0 : Int) ≤ r) ∧
    (runFIFO 1 [3, 3, 4, 4, 3].length [3, 3, 4, 4, 3]).hit =
        (runLRU 1 [3, 3, 4, 4, 3].length [3, 3, 4, 4, 3]).hit ∧
    (∀ k, k ≤ [3, 3, 4, 4, 3].length →
        (runFIFO 1 k [3, 3, 4, 4, 3]).hit = (runLRU 1 k [3, 3, 4, 4, 3]).hit) ∧
    (1 ≤ [3, 3, 4, 4, 3].length →
        (runFIFO 1 1 [3, 3, 4, 4, 3]).hit = 0 ∧ (runLRU 1 1 [3, 3, 4, 4, 3]).hit = 0) ∧
    (∀ k, k + 1 < [3, 3, 4, 4, 3].length →
        (runFIFO 1 (k + 2) [3, 3, 4, 4, 3]).hit =
          (runFIFO 1 (k + 1) [3, 3, 4, 4, 3]).hit +
            (if ([3, 3, 4, 4, 3] : List Int)[k + 1]? = ([3, 3, 4, 4, 3] : List Int)[k]?
              then 1 else 0) ∧
        (runLRU 1 (k + 2) [3, 3, 4, 4, 3]).hit =
          (runLRU 1 (k + 1) [3, 3, 4, 4, 3]).hit +
            (if ([3, 3, 4, 4, 3] : List Int)[k + 1]? = ([3, 3, 4, 4, 3] : List Int)[k]?
              then 1 else 0)) :=
  ⟨by decide, C9_single_block_engines_agree [3, 3, 4, 4, 3] (by decide)⟩

/-- C10: for every `sizeOfCache >= 1`, every non-negative `v` and every
`n >= 1`, on the stream of `n` copies of `v` both `runFIFO` and `runLRU` end
with `hit = n - 1`; so the LRU hit count is not below the FIFO hit count
there. -/
theorem C10_repeated_value_hits (sizeOfCache : Nat) (v : Int) (n : Nat)
    (hc : 1 ≤ sizeOfCache) (hv : 0 ≤ v) (hn : 1 ≤ n) :
    (runFIFO sizeOfCache n (List.replicate n v)).hit = (n : Int) - 1 ∧
    (runLRU sizeOfCache n (List.replicate n v)).hit = (n : Int) - 1 ∧
    (runFIFO sizeOfCache n (List.replicate n v)).hit ≤
      (runLRU sizeOfCache n (List.replicate n v)).hit := by
  have hr : ∀ r ∈ List.replicate n v, (0 : Int) ≤ r := by
    intro r h
    rw [List.eq_of_mem_replicate h]; exact hv
  have hlen : n ≤ (List.replicate n v).length := by simp
  have hF := (fifoRel_run sizeOfCache n hc fifoGlobals _ hlen hr).2.1
  have hL := (lruRel_run sizeOfCache n hc lruGlobals _ hlen hr).1
  change (runFIFO sizeOfCache n (List.replicate n v)).hit = _ at hF
  change (runLRU sizeOfCache n (List.replicate n v)).hit = _ at hL
  have htake : (List.replicate n v).take n = List.replicate n v := by
    apply List.take_of_length_le; simp
  obtain ⟨j, rfl⟩ : ∃ j, n = j + 1 := ⟨n - 1, by omega⟩
  rw [htake] at hF hL
  rw [(models_replicate sizeOfCache hc v j).1] at hF
  rw [(models_replicate sizeOfCache hc v j).2] at hL
  rw [hF, hL]
  simp

set_option maxRecDepth 100000 in
/-- Witness for C10: five copies of block `9` with three cache blocks. -/
theorem C10_repeated_value_hits_witness :
    1 ≤ 3 ∧ (0 : Int) ≤ 9 ∧ 1 ≤ 5 ∧
    (runFIFO 3 5 (List.replicate 5 9)).hit = ((5 : Nat) : Int) - 1 ∧
    (runLRU 3 5 (List.replicate 5 9)).hit = ((5 : Nat) : Int) - 1 ∧
    (runFIFO 3 5 (List.replicate 5 9)).hit ≤ (runLRU 3 5 (List.replicate 5 9)).hit :=
  ⟨by decide, by decide, by decide,
    C10_repeated_value_hits 3 9 5 (by decide) (by decide) (by decide)⟩

/-- C11: the validation of `main` on the parsed values.  An engine is run
(the output is a `Cache Hit Ratio` line) exactly when the memory size is 32,
64 or 128, the cache size lies between 1 and a quarter of the memory size
(integer division), every reference lies in `[0, memory size)` and the
policy character is `F`, `f`, `L` or `l`; otherwise the output is a single
rejection and no hit count.  The rejection is the memory-size message when
the memory size is not permitted, the cache-size message when the memory size
is permitted and the cache size is out of range, and the reference message
when both are in order and some reference is out of range. -/
theorem C11_validation_gate (sizeOfCache sizeOfMainMemory : Int) (algoType : Char)
    (references : List Int) :
    ((∃ r, validateAndRun references.length sizeOfCache sizeOfMainMemory algoType references =
          [Line.hitRatio r]) ↔
      ((sizeOfMainMemory = 32 ∨ sizeOfMainMemory = 64 ∨ sizeOfMainMemory = 128) ∧
        (1 ≤ sizeOfCache ∧ sizeOfCache ≤ Int.tdiv sizeOfMainMemory 4) ∧
        (∀ r ∈ references, 0 ≤ r ∧ r < sizeOfMainMemory) ∧
        (algoType = 'F' ∨ algoType = 'f' ∨ algoType = 'L' ∨ algoType = 'l'))) ∧
    (¬ ((sizeOfMainMemory = 32 ∨ sizeOfMainMemory = 64 ∨ sizeOfMainMemory = 128) ∧
          (1 ≤ sizeOfCache ∧ sizeOfCache ≤ Int.tdiv sizeOfMainMemory 4) ∧
          (∀ r ∈ references, 0 ≤ r ∧ r < sizeOfMainMemory) ∧
          (algoType = 'F' ∨ algoType = 'f' ∨ algoType = 'L' ∨ algoType = 'l')) →
      ∃ e, validateAndRun references.length sizeOfCache sizeOfMainMemory algoType references =
          [e] ∧ ∀ r, e ≠ Line.hitRatio r) ∧
    (¬ (sizeOfMainMemory = 32 ∨ sizeOfMainMemory = 64 ∨ sizeOfMainMemory = 128) →
      validateAndRun references.length sizeOfCache sizeOfMainMemory algoType references =
        [Line.invalidMemorySize]) ∧
    ((sizeOfMainMemory = 32 ∨ sizeOfMainMemory = 64 ∨ sizeOfMainMemory = 128) →
      ¬ (1 ≤ sizeOfCache ∧ sizeOfCache ≤ Int.tdiv sizeOfMainMemory 4) →
      validateAndRun references.length sizeOfCache sizeOfMainMemory algoType references =
        [Line.invalidCacheSize]) ∧
    ((sizeOfMainMemory = 32 ∨ sizeOfMainMemory = 64 ∨ sizeOfMainMemory = 128) →
      (1 ≤ sizeOfCache ∧ sizeOfCache ≤ Int.tdiv sizeOfMainMemory 4) →
      (∃ r ∈ references, r < 0 ∨ sizeOfMainMemory ≤ r) →
      validateAndRun references.length sizeOfCache sizeOfMainMemory algoType references =
        [Line.invalidReference]) := by
  have hcases : ∀ out : List Line,
      out = validateAndRun references.length sizeOfCache sizeOfMainMemory algoType references →
      ((∃ r, out = [Line.hitRatio r]) ↔
        ((sizeOfMainMemory = 32 ∨ sizeOfMainMemory = 64 ∨ sizeOfMainMemory = 128) ∧
          (1 ≤ sizeOfCache ∧ sizeOfCache ≤ Int.tdiv sizeOfMainMemory 4) ∧
          (∀ r ∈ references, 0 ≤ r ∧ r < sizeOfMainMemory) ∧
          (algoType = 'F' ∨ algoType = 'f' ∨ algoType = 'L' ∨ algoType = 'l'))) ∧
      ∃ e, out = [e] := by
    intro out hout
    by_cases hM : sizeOfMainMemory = 32 ∨ sizeOfMainMemory = 64 ∨ sizeOfMainMemory = 128
    · by_cases hc : 1 ≤ sizeOfCache ∧ sizeOfCache ≤ Int.tdiv sizeOfMainMemory 4
      · rw [validateAndRun_valid _ _ _ _ hM hc] at hout
        by_cases hv : referencesAreValid references sizeOfMainMemory references.length 0 = false
        · rw [if_pos hv] at hout
          have hbad := (referencesAreValid_false_iff _ _).mp hv
          refine ⟨⟨?_, ?_⟩, ⟨_, hout⟩⟩
          · rintro ⟨r, hr⟩
            rw [hout] at hr
            simp at hr
          · rintro ⟨_, _, hall, _⟩
            obtain ⟨r, hr, hbad⟩ := hbad
            have := hall r hr
            omega
        · rw [if_neg hv] at hout
          have hok := (referencesAreValid_iff _ _).mp (by simpa using hv)
          by_cases hF : algoType = 'F' ∨ algoType = 'f'
          · rw [if_pos hF] at hout
            refine ⟨⟨fun _ => ⟨hM, hc, hok, ?_⟩, fun _ => ⟨_, hout⟩⟩, ⟨_, hout⟩⟩
            rcases hF with h | h
            · exact Or.inl h
            · exact Or.inr (Or.inl h)
          · rw [if_neg hF] at hout
            by_cases hL : algoType = 'L' ∨ algoType = 'l'
            · rw [if_pos hL] at hout
              refine ⟨⟨fun _ => ⟨hM, hc, hok, ?_⟩, fun _ => ⟨_, hout⟩⟩, ⟨_, hout⟩⟩
              rcases hL with h | h
              · exact Or.inr (Or.inr (Or.inl h))
              · exact Or.inr (Or.inr (Or.inr h))
            · rw [if_neg hL] at hout
              refine ⟨⟨?_, ?_⟩, ⟨_, hout⟩⟩
              · rintro ⟨r, hr⟩
                rw [hout] at hr
                simp at hr
              · rintro ⟨_, _, _, h | h | h | h⟩
                · exact absurd (Or.inl h) hF
                · exact absurd (Or.inr h) hF
                · exact absurd (Or.inl h) hL
                · exact absurd (Or.inr h) hL
      · rw [validateAndRun_cache _ _ _ _ _ hM hc] at hout
        refine ⟨⟨?_, fun h => absurd h.2.1 hc⟩, ⟨_, hout⟩⟩
        rintro ⟨r, hr⟩
        rw [hout] at hr
        simp at hr
    · rw [validateAndRun_memory _ _ _ _ _ hM] at hout
      refine ⟨⟨?_, fun h => absurd h.1 hM⟩, ⟨_, hout⟩⟩
      rintro ⟨r, hr⟩
      rw [hout] at hr
      simp at hr
  obtain ⟨hiff, e, he⟩ := hcases _ rfl
  refine ⟨hiff, ?_, ?_, ?_, ?_⟩
  · intro hnot
    refine ⟨e, he, fun r hr => hnot (hiff.mp ⟨r, ?_⟩)⟩
    rw [he, hr]
  · exact fun hM => validateAndRun_memory _ _ _ _ _ hM
  · exact fun hM hc => validateAndRun_cache _ _ _ _ _ hM hc
  · intro hM hc hbad
    rw [validateAndRun_valid _ _ _ _ hM hc,
      if_pos ((referencesAreValid_false_iff _ _).mpr hbad)]

set_option maxRecDepth 100000 in
/-- Witness for C11: memory size 50 is rejected as an invalid memory size,
cache size 20 with memory size 64 as an invalid cache size, and a reference
equal to the memory size 32 as an invalid reference. -/
theorem C11_validation_gate_witness :
    validateAndRun [1].length 8 50 'F' [1] = [Line.invalidMemorySize] ∧
    validateAndRun [1].length 20 64 'F' [1] = [Line.invalidCacheSize] ∧
    validateAndRun [1, 32].length 8 32 'F' [1, 32] = [Line.invalidReference] :=
  ⟨(C11_validation_gate 8 50 'F' [1]).2.2.1 (by decide),
    (C11_validation_gate 20 64 'F' [1]).2.2.2.1 (by decide) (by decide),
    (C11_validation_gate 8 32 'F' [1, 32]).2.2.2.2 (by decide) (by decide)
      ⟨32, by decide, by decide⟩⟩

set_option maxRecDepth 100000 in
/-- C12 (as stated, refuted): the invocation `./CacheAlgo 8 32 X 32` has a
valid memory size and cache size, a policy code that is neither `F` nor `L`
and an out-of-range reference; `main` reports the reference, not the
policy. -/
theorem C12_policy_not_checked_before_references :
    ((32 : Int) = 32 ∨ (32 : Int) = 64 ∨ (32 : Int) = 128) ∧
    ((1 : Int) ≤ 8 ∧ (8 : Int) ≤ Int.tdiv 32 4) ∧
    ¬ (firstChar "X" = 'F' ∨ firstChar "X" = 'f' ∨ firstChar "X" = 'L' ∨
        firstChar "X" = 'l') ∧
    (∃ r ∈ [atoiDecimal "32"], r < 0 ∨ (32 : Int) ≤ r) ∧
    main atoiDecimal ["./CacheAlgo", "8", "32", "X", "32"] = [Line.invalidReference] ∧
    main atoiDecimal ["./CacheAlgo", "8", "32", "X", "32"] ≠ [Line.invalidPolicy] := by
  decide

/-- C12 (amended): `main` applies its checks in the order memory size, cache
size, reference range, policy, and reports the first that fails.  For every
input whose memory size and cache size are valid, whose policy character is
none of `F`, `f`, `L`, `l` and which contains an out-of-range reference, the
rejection is the reference message; the policy message appears only when
memory size, cache size and all references are in order. -/
theorem C12_references_checked_before_policy (sizeOfCache sizeOfMainMemory : Int)
    (algoType : Char) (references : List Int)
    (hM : sizeOfMainMemory = 32 ∨ sizeOfMainMemory = 64 ∨ sizeOfMainMemory = 128)
    (hc : 1 ≤ sizeOfCache ∧ sizeOfCache ≤ Int.tdiv sizeOfMainMemory 4)
    (hp : ¬ (algoType = 'F' ∨ algoType = 'f' ∨ algoType = 'L' ∨ algoType = 'l')) :
    ((∃ r ∈ references, r < 0 ∨ sizeOfMainMemory ≤ r) →
      validateAndRun references.length sizeOfCache sizeOfMainMemory algoType references =
        [Line.invalidReference]) ∧
    ((∀ r ∈ references, 0 ≤ r ∧ r < sizeOfMainMemory) →
      validateAndRun references.length sizeOfCache sizeOfMainMemory algoType references =
        [Line.invalidPolicy]) ∧
    (∀ (c M : Int), ¬ (M = 32 ∨ M = 64 ∨ M = 128) →
      validateAndRun references.length c M algoType references = [Line.invalidMemorySize]) ∧
    (∀ c : Int, ¬ (1 ≤ c ∧ c ≤ Int.tdiv sizeOfMainMemory 4) →
      validateAndRun references.length c sizeOfMainMemory algoType references =
        [Line.invalidCacheSize]) := by
  have hF : ¬ (algoType = 'F' ∨ algoType = 'f') :=
    fun h => hp (h.elim Or.inl (fun h => Or.inr (Or.inl h)))
  have hL : ¬ (algoType = 'L' ∨ algoType = 'l') :=
    fun h => hp (h.elim (fun h => Or.inr (Or.inr (Or.inl h)))
      (fun h => Or.inr (Or.inr (Or.inr h))))
  refine ⟨?_, ?_, ?_, ?_⟩
  · intro hbad
    rw [validateAndRun_valid _ _ _ _ hM hc,
      if_pos ((referencesAreValid_false_iff _ _).mpr hbad)]
  · intro hok
    have hv : ¬ (referencesAreValid references sizeOfMainMemory references.length 0 = false) := by
      rw [(referencesAreValid_iff _ _).mpr hok]
      exact Bool.noConfusion
    rw [validateAndRun_valid _ _ _ _ hM hc, if_neg hv, if_neg hF, if_neg hL]
  · exact fun c M h => validateAndRun_memory _ _ _ _ _ h
  · exact fun c h => validateAndRun_cache _ _ _ _ _ hM h

set_option maxRecDepth 100000 in
/-- Witness for C12 (amended): cache size 8, memory size 32, policy `X` and
the references `1 32`. -/
theorem C12_references_checked_before_policy_witness :
    ((32 : Int) = 32 ∨ (32 : Int) = 64 ∨ (32 : Int) = 128) ∧
    ((1 : Int) ≤ 8 ∧ (8 : Int) ≤ Int.tdiv 32 4) ∧
    ¬ ('X' = 'F' ∨ 'X' = 'f' ∨ 'X' = 'L' ∨ 'X' = 'l') ∧
    validateAndRun [1, 32].length 8 32 'X' [1, 32] = [Line.invalidReference] :=
  ⟨by decide, by decide, by decide,
    (C12_references_checked_before_policy 8 32 'X' [1, 32] (by decide) (by decide)
      (by decide)).1 ⟨32, by decide, by decide⟩⟩

set_option maxRecDepth 100000 in
/-- C13 (the code at the failing input): in the otherwise valid invocation
`./CacheAlgo 8 32 Fx 1 2 1` the policy argument `Fx` is none of the single
characters `F`, `f`, `L`, `l`, yet `main` runs the FIFO engine and prints
`1/3` instead of the invalid-policy message; likewise
`./CacheAlgo 8 32 LFU 1 2 1` runs the LRU engine. -/
theorem C13_longer_policy_string_accepted :
    "Fx" ≠ "F" ∧ "Fx" ≠ "f" ∧ "Fx" ≠ "L" ∧ "Fx" ≠ "l" ∧
    main atoiDecimal ["./CacheAlgo", "8", "32", "Fx", "1", "2", "1"] =
      [Line.hitRatio (reportFIFO 8 3 [1, 2, 1])] ∧
    main atoiDecimal ["./CacheAlgo", "8", "32", "Fx", "1", "2", "1"] =
      [Line.hitRatio { hit := 1, total := 3 }] ∧
    main atoiDecimal ["./CacheAlgo", "8", "32", "Fx", "1", "2", "1"] ≠
      [Line.invalidPolicy] ∧
    main atoiDecimal ["./CacheAlgo", "8", "32", "LFU", "1", "2", "1"] =
      [Line.hitRatio (reportLRU 8 3 [1, 2, 1])] ∧
    main atoiDecimal ["./CacheAlgo", "8", "32", "LFU", "1", "2", "1"] ≠
      [Line.invalidPolicy] := by
  decide

/-- C14: an invocation with fewer than five entries in `argv`, in particular
the program name and the three configuration arguments without any
reference, prints the insufficient-arguments message and runs no engine; and
whenever `main` runs an engine, it runs it with
`numberOfReferences = argc - 4 >= 1`, so the divisor of the hit ratio is not
zero. -/
theorem C14_engine_never_runs_on_empty_stream (atoi : String → Int) (argv : List String) :
    (argv.length < 5 → main atoi argv = [Line.insufficientArguments]) ∧
    (∀ r, Line.hitRatio r ∈ main atoi argv →
      5 ≤ argv.length ∧ 1 ≤ argv.length - 4 ∧
      (r = reportFIFO (atoi (argv.getD 1 "")).toNat (argv.length - 4)
            ((argv.drop 4).map atoi) ∨
        r = reportLRU (atoi (argv.getD 1 "")).toNat (argv.length - 4)
            ((argv.drop 4).map atoi)) ∧
      r.total = ((argv.length - 4 : Nat) : Int) ∧ 1 ≤ r.total ∧ r.total ≠ 0) := by
  constructor
  · intro h
    unfold main
    rw [if_pos h]
  · intro r hr
    by_cases h5 : 5 ≤ argv.length
    · rw [main_of_five atoi argv h5] at hr
      have hrep := validateAndRun_hitRatio _ _ _ _ _ r hr
      have htot : r.total = ((argv.length - 4 : Nat) : Int) := by
        rcases hrep with ⟨_, _, h⟩ | ⟨_, _, h⟩ <;> rw [h] <;> rfl
      refine ⟨h5, by omega, ?_, htot, by omega, by omega⟩
      rcases hrep with ⟨_, _, h⟩ | ⟨_, _, h⟩
      · exact Or.inl h
      · exact Or.inr h
    · unfold main at hr
      rw [if_pos (by omega)] at hr
      simp at hr

set_option maxRecDepth 100000 in
/-- Witness for C14: `./CacheAlgo 8 32 F` is rejected for want of arguments,
and `./CacheAlgo 8 32 F 1 1` runs the FIFO engine on two references. -/
theorem C14_engine_never_runs_on_empty_stream_witness :
    main atoiDecimal ["./CacheAlgo", "8", "32", "F"] = [Line.insufficientArguments] ∧
    main atoiDecimal ["./CacheAlgo", "8", "32", "F", "1", "1"] =
      [Line.hitRatio { hit := 1, total := 2 }] ∧
    ({ hit := 1, total := 2 } : Report).total ≠ 0 :=
  ⟨(C14_engine_never_runs_on_empty_stream atoiDecimal ["./CacheAlgo", "8", "32", "F"]).1
      (by decide),
    by decide,
    ((C14_engine_never_runs_on_empty_stream atoiDecimal
      ["./CacheAlgo", "8", "32", "F", "1", "1"]).2 { hit := 1, total := 2 }
      (by decide)).2.2.2.2.2⟩

/-- C15: the result of `runFIFO` depends on `sizeOfCache`, `numberOfReferences`
and the reference stream only.  Whatever the globals `hit`, `cq_front`,
`cq_rear`, `cq_size`, `cq_items` hold before the call and whatever the block
returned by `malloc` contains, two runs end with the same hit count (indeed
with the same globals), which is the one of a run in a fresh process; in
particular a run that follows an earlier run repeats its result. -/
theorem C15_fifo_result_independent_of_prior_state (sizeOfCache numberOfReferences : Nat)
    (references : List Int) (prev₁ prev₂ : FifoState) (fresh₁ fresh₂ : List Int)
    (h₁ : fresh₁.length = sizeOfCache) (h₂ : fresh₂.length = sizeOfCache) :
    (runFIFOOn prev₁ fresh₁ sizeOfCache numberOfReferences references).hit =
        (runFIFOOn prev₂ fresh₂ sizeOfCache numberOfReferences references).hit ∧
    runFIFOOn prev₁ fresh₁ sizeOfCache numberOfReferences references =
        runFIFOOn prev₂ fresh₂ sizeOfCache numberOfReferences references ∧
    runFIFOOn prev₁ fresh₁ sizeOfCache numberOfReferences references =
        runFIFO sizeOfCache numberOfReferences references ∧
    runFIFOOn (runFIFOOn prev₁ fresh₁ sizeOfCache numberOfReferences references) fresh₂
        sizeOfCache numberOfReferences references =
      runFIFOOn prev₁ fresh₁ sizeOfCache numberOfReferences references := by
  have e₁ := runFIFOOn_eq sizeOfCache numberOfReferences prev₁ fresh₁ references h₁
  have e₂ := runFIFOOn_eq sizeOfCache numberOfReferences prev₂ fresh₂ references h₂
  have e₃ := runFIFOOn_eq sizeOfCache numberOfReferences
    (runFIFOOn prev₁ fresh₁ sizeOfCache numberOfReferences references) fresh₂ references h₂
  refine ⟨by rw [e₁, e₂], by rw [e₁, e₂], e₁, by rw [e₃, e₁]⟩

set_option maxRecDepth 100000 in
/-- Witness for C15: four cache blocks on the sample stream, once from the
zeroed globals with a zeroed block, once from the globals left by the
eight-block run with a block full of sevens. -/
theorem C15_fifo_result_independent_of_prior_state_witness :
    [0, 0, 0, 0].length = 4 ∧ [7, 7, 7, 7].length = 4 ∧
    (runFIFOOn fifoGlobals [0, 0, 0, 0] 4 20 sampleRefs).hit =
      (runFIFOOn (runFIFO 8 20 sampleRefs) [7, 7, 7, 7] 4 20 sampleRefs).hit :=
  ⟨by decide, by decide,
    (C15_fifo_result_independent_of_prior_state 4 20 sampleRefs fifoGlobals
      (runFIFO 8 20 sampleRefs) [0, 0, 0, 0] [7, 7, 7, 7] (by decide) (by decide)).1⟩

/-- C16: in the FIFO engine with `sizeOfCache >= 1`, for any stream and any
number `k` of references already processed: if reference `k` is found in
`cq_items` (the scan covers the whole array), processing it adds exactly 1 to
`hit` and leaves `cq_items`, `cq_front` and `cq_rear` as they are; if it is
not found, processing it leaves `hit` as it is and changes exactly one slot
of `cq_items`, which then holds the reference. -/
theorem C16_fifo_step_frame (sizeOfCache : Nat) (references : List Int)
    (hc : 1 ≤ sizeOfCache) (k : Nat) (hk : k < references.length) :
    (references[k] ∈ (runFIFO sizeOfCache k references).cq_items ↔
      ∃ i, scanLoop (runFIFO sizeOfCache k references).cq_items references[k] sizeOfCache 0 =
        some i) ∧
    (references[k] ∈ (runFIFO sizeOfCache k references).cq_items →
      (runFIFO sizeOfCache (k + 1) references).hit =
        (runFIFO sizeOfCache k references).hit + 1 ∧
      (runFIFO sizeOfCache (k + 1) references).cq_items =
        (runFIFO sizeOfCache k references).cq_items ∧
      (runFIFO sizeOfCache (k + 1) references).cq_front =
        (runFIFO sizeOfCache k references).cq_front ∧
      (runFIFO sizeOfCache (k + 1) references).cq_rear =
        (runFIFO sizeOfCache k references).cq_rear) ∧
    (references[k] ∉ (runFIFO sizeOfCache k references).cq_items →
      (runFIFO sizeOfCache (k + 1) references).hit = (runFIFO sizeOfCache k references).hit ∧
      ∃ i, i < sizeOfCache ∧
        (runFIFO sizeOfCache (k + 1) references).cq_items[i]? ≠
          (runFIFO sizeOfCache k references).cq_items[i]? ∧
        (runFIFO sizeOfCache (k + 1) references).cq_items[i]? = some references[k] ∧
        ∀ j, j ≠ i →
          (runFIFO sizeOfCache (k + 1) references).cq_items[j]? =
            (runFIFO sizeOfCache k references).cq_items[j]?) := by
  have hshape := runFIFO_shape sizeOfCache hc references k
  have hlen := hshape.2.1
  have hscan := scanLoop_full (runFIFO sizeOfCache k references).cq_items references[k]
  rw [hlen] at hscan
  have hget : references.getD k 0 = references[k] := by
    simp [List.getD_eq_getElem?_getD, List.getElem?_eq_getElem hk]
  rw [runFIFO_succ, hget]
  generalize runFIFO sizeOfCache k references = s at hshape hlen hscan ⊢
  generalize references[k] = r at hscan ⊢
  refine ⟨?_, ?_, ?_⟩
  · rw [hscan]
    by_cases hm : r ∈ s.cq_items
    · simp [hm]
    · simp [hm]
  · intro hm
    rw [if_pos hm] at hscan
    unfold fifoStep
    rw [hscan]
    exact ⟨rfl, rfl, rfl, rfl⟩
  · intro hm
    rw [if_neg hm] at hscan
    have hstep : fifoStep sizeOfCache s r = cq_enqueue s r := by
      unfold fifoStep
      rw [hscan]
    rw [hstep]
    obtain ⟨i, hi, hitems, _, _⟩ := cq_enqueue_shape sizeOfCache hc s r hshape
    refine ⟨cq_enqueue_hit s r, i, hi, ?_, ?_, ?_⟩
    · rw [hitems, List.getElem?_set_self (by omega), List.getElem?_eq_getElem (by omega)]
      intro heq
      apply hm
      rw [Option.some.inj heq]
      exact List.getElem_mem _
    · rw [hitems, List.getElem?_set_self (by omega)]
    · intro j hj
      rw [hitems, List.getElem?_set_ne (fun h => hj h.symm)]

set_option maxRecDepth 100000 in
/-- Witness for C16: four cache blocks on the sample stream; the fourteenth
reference (index 13, the second `12`) is a miss that overwrites one slot. -/
theorem C16_fifo_step_frame_witness :
    1 ≤ 4 ∧ 13 < sampleRefs.length ∧
    (runFIFO 4 (13 + 1) sampleRefs).hit = (runFIFO 4 13 sampleRefs).hit ∧
    ∃ i, i < 4 ∧
      (runFIFO 4 (13 + 1) sampleRefs).cq_items[i]? ≠ (runFIFO 4 13 sampleRefs).cq_items[i]? ∧
      (runFIFO 4 (13 + 1) sampleRefs).cq_items[i]? = some 12 ∧
      ∀ j, j ≠ i →
        (runFIFO 4 (13 + 1) sampleRefs).cq_items[j]? = (runFIFO 4 13 sampleRefs).cq_items[j]? :=
  ⟨by decide, by decide,
    (C16_fifo_step_frame 4 sampleRefs (by decide) 13 (by decide)).2.2 (by decide)⟩

/-- C17: in the LRU engine with `sizeOfCache >= 1`, for any stream and any
number `k` of references already processed, right after reference `k` is
processed `arr_items[0]` holds it, hit or miss.  On a hit, at the position
`i` where the scan finds the reference, `hit` grows by 1, the entries before
`i` move back by one, the entries after `i` stay, and the array after the
step is a rearrangement of the array before it, so the multiset of resident
identifiers (the entries other than `-1`) is the same. -/
theorem C17_lru_step_moves_to_front (sizeOfCache : Nat) (references : List Int)
    (hc : 1 ≤ sizeOfCache) (k : Nat) (hk : k < references.length) :
    (runLRU sizeOfCache (k + 1) references).arr_items[0]? = some references[k] ∧
    (∀ i, scanLoop (runLRU sizeOfCache k references).arr_items references[k] sizeOfCache 0 =
        some i →
      (runLRU sizeOfCache k references).arr_items[i]? = some references[k] ∧
      (runLRU sizeOfCache (k + 1) references).hit =
        (runLRU sizeOfCache k references).hit + 1 ∧
      (∀ j, i < j →
        (runLRU sizeOfCache (k + 1) references).arr_items[j]? =
          (runLRU sizeOfCache k references).arr_items[j]?) ∧
      (∀ j, j < i →
        (runLRU sizeOfCache (k + 1) references).arr_items[j + 1]? =
          (runLRU sizeOfCache k references).arr_items[j]?) ∧
      (runLRU sizeOfCache (k + 1) references).arr_items.Perm
        (runLRU sizeOfCache k references).arr_items ∧
      ((runLRU sizeOfCache (k + 1) references).arr_items.filter (fun x => x != -1)).Perm
        ((runLRU sizeOfCache k references).arr_items.filter (fun x => x != -1))) := by
  have hlen := runLRU_length sizeOfCache references k
  have hget : references.getD k 0 = references[k] := by
    simp [List.getD_eq_getElem?_getD, List.getElem?_eq_getElem hk]
  rw [runLRU_succ, hget]
  generalize runLRU sizeOfCache k references = s at hlen ⊢
  generalize references[k] = r
  refine ⟨lruStep_head sizeOfCache s r (by omega), ?_⟩
  intro i hi
  have hscan := scanLoop_full s.arr_items r
  rw [hlen, hi] at hscan
  have hm : r ∈ s.arr_items := by
    by_contra hm
    rw [if_neg hm] at hscan
    exact Option.noConfusion hscan
  rw [if_pos hm] at hscan
  have hidx : i = s.arr_items.indexOf r := Option.some.inj hscan
  have hlt : s.arr_items.indexOf r < s.arr_items.length := List.indexOf_lt_length.mpr hm
  obtain ⟨hhit, hitems⟩ := lruStep_hit_items sizeOfCache s r hlen hm
  have hperm := move_to_front_perm s.arr_items r hm
  rw [hitems, hidx]
  refine ⟨?_, hhit, ?_, ?_, hperm, hperm.filter _⟩
  · rw [List.getElem?_eq_getElem hlt, List.getElem_indexOf hlt]
  · intro j hj
    exact move_to_front_getElem? s.arr_items r _ j hj
  · intro j hj
    rw [List.getElem?_cons_succ, List.getElem?_append_left (by rw [List.length_take]; omega),
      List.getElem?_take_of_lt hj]

set_option maxRecDepth 100000 in
/-- Witness for C17: four cache blocks on the sample stream; after the
fourteenth reference (index 13, the second `12`) slot 0 holds `12`. -/
theorem C17_lru_step_moves_to_front_witness :
    1 ≤ 4 ∧ 13 < sampleRefs.length ∧
    (runLRU 4 (13 + 1) sampleRefs).arr_items[0]? = some 12 :=
  ⟨by decide, by decide,
    (C17_lru_step_moves_to_front 4 sampleRefs (by decide) 13 (by decide)).1⟩

/-- C18: for both engines, `sizeOfCache >= 1` and non-negative references,
with `d` the number of distinct identifiers of the stream: a reference to an
identifier that has not occurred before is a miss (the hit counter stays);
the final hit count is at most `numberOfReferences - d`; and when
`sizeOfCache >= d` every identifier referenced so far is resident after every
reference (nothing is evicted) and the final hit count is exactly
`numberOfReferences - d`. -/
theorem C18_compulsory_misses (sizeOfCache : Nat) (references : List Int)
    (hc : 1 ≤ sizeOfCache) (hr : ∀ r ∈ references, (0 : Int) ≤ r) :
    (∀ k (hk : k < references.length), references[k] ∉ references.take k →
      (runFIFO sizeOfCache (k + 1) references).hit = (runFIFO sizeOfCache k references).hit ∧
      (runLRU sizeOfCache (k + 1) references).hit = (runLRU sizeOfCache k references).hit) ∧
    (runFIFO sizeOfCache references.length references).hit ≤
      (references.length : Int) - (references.toFinset.card : Int) ∧
    (runLRU sizeOfCache references.length references).hit ≤
      (references.length : Int) - (references.toFinset.card : Int) ∧
    (references.toFinset.card ≤ sizeOfCache →
      (runFIFO sizeOfCache references.length references).hit =
        (references.length : Int) - (references.toFinset.card : Int) ∧
      (runLRU sizeOfCache references.length references).hit =
        (references.length : Int) - (references.toFinset.card : Int) ∧
      ∀ k, k ≤ references.length → ∀ x ∈ references.take k,
        x ∈ (runFIFO sizeOfCache k references).cq_items ∧
        x ∈ (runLRU sizeOfCache k references).arr_items) := by
  have hF : ∀ k, k ≤ references.length →
      FifoRel sizeOfCache (runFIFO sizeOfCache k references)
        (fifoModel sizeOfCache (references.take k)) :=
    fun k hk => fifoRel_run sizeOfCache k hc fifoGlobals references hk hr
  have hL : ∀ k, k ≤ references.length →
      LruRel sizeOfCache (runLRU sizeOfCache k references)
        (lruModel sizeOfCache (references.take k)) :=
    fun k hk => lruRel_run sizeOfCache k hc lruGlobals references hk hr
  have hFhit := (hF references.length (le_refl _)).2.1
  have hLhit := (hL references.length (le_refl _)).1
  rw [List.take_length] at hFhit hLhit
  have hFle := hits_le_of_resident_subset (fun pre => (fifoModel sizeOfCache pre).2)
    (fun pre => (fifoModel sizeOfCache pre).1) rfl (fifoModel_hits_snoc sizeOfCache)
    (fifoModel_subset sizeOfCache) references
  have hLle := hits_le_of_resident_subset (fun pre => (lruModel sizeOfCache pre).2)
    (fun pre => (lruModel sizeOfCache pre).1) rfl (lruModel_hits_snoc sizeOfCache)
    (lruModel_subset sizeOfCache hc) references
  simp only at hFle hLle
  refine ⟨?_, by rw [hFhit]; omega, by rw [hLhit]; omega, ?_⟩
  · intro k hk hnew
    have h1 := (hF (k + 1) (by omega)).2.1
    have h2 := (hF k (by omega)).2.1
    have h3 := (hL (k + 1) (by omega)).1
    have h4 := (hL k (by omega)).1
    have hnF : references[k] ∉ (fifoModel sizeOfCache (references.take k)).1 :=
      fun h => hnew (fifoModel_subset sizeOfCache _ _ h)
    have hnL : references[k] ∉ (lruModel sizeOfCache (references.take k)).1 :=
      fun h => hnew (lruModel_subset sizeOfCache hc _ _ h)
    rw [h1, h2, h3, h4, List.take_succ, List.getElem?_eq_getElem hk, Option.toList_some,
      fifoModel_hits_snoc, lruModel_hits_snoc, if_neg hnF, if_neg hnL]
    exact ⟨by omega, by omega⟩
  · intro hd
    have hFeq := hits_eq_of_resident_all sizeOfCache (fun pre => (fifoModel sizeOfCache pre).2)
      (fun pre => (fifoModel sizeOfCache pre).1) rfl (fifoModel_hits_snoc sizeOfCache)
      (fifoModel_subset sizeOfCache) (fifoModel_all_resident sizeOfCache hc) references hd
    have hLeq := hits_eq_of_resident_all sizeOfCache (fun pre => (lruModel sizeOfCache pre).2)
      (fun pre => (lruModel sizeOfCache pre).1) rfl (lruModel_hits_snoc sizeOfCache)
      (lruModel_subset sizeOfCache hc) (lruModel_all_resident sizeOfCache hc) references hd
    simp only at hFeq hLeq
    refine ⟨by rw [hFhit]; omega, by rw [hLhit]; omega, ?_⟩
    intro k hk x hx
    have hx0 : (0 : Int) ≤ x := hr x (List.mem_of_mem_take hx)
    have hdk : (references.take k).toFinset.card ≤ sizeOfCache :=
      le_trans (card_take_le references k) hd
    exact ⟨(fifoRel_mem (hF k hk) hx0).mpr (fifoModel_all_resident sizeOfCache hc _ hdk x hx),
      (lruRel_mem (hL k hk) hx0).mpr (lruModel_all_resident sizeOfCache hc _ hdk x hx)⟩

set_option maxRecDepth 100000 in
/-- Witness for C18: the sample stream (20 references, 12 distinct
identifiers) with eight cache blocks; both engines stay within 8 hits. -/
theorem C18_compulsory_misses_witness :
    1 ≤ 8 ∧ (∀ r ∈ sampleRefs, (0 : Int) ≤ r) ∧ sampleRefs.toFinset.card = 12 ∧
    (runFIFO 8 sampleRefs.length sampleRefs).hit ≤
      (sampleRefs.length : Int) - (sampleRefs.toFinset.card : Int) ∧
    (runLRU 8 sampleRefs.length sampleRefs).hit ≤
      (sampleRefs.length : Int) - (sampleRefs.toFinset.card : Int) :=
  ⟨by decide, by decide, by decide,
    (C18_compulsory_misses 8 sampleRefs (by decide) (by decide)).2.1,
    (C18_compulsory_misses 8 sampleRefs (by decide) (by decide)).2.2.1⟩

/-- C19: for every stream of non-negative references and every `c >= 1`,
after any number `k` of processed references the first `c` entries of
`arr_items` in the run with `sizeOfCache = c + 1` are the entries of
`arr_items` in the run with `sizeOfCache = c`, and the hit count of the
larger run is at least that of the smaller, after every prefix and at the
end. -/
theorem C19_lru_inclusion (c : Nat) (references : List Int)
    (hc : 1 ≤ c) (hr : ∀ r ∈ references, (0 : Int) ≤ r) :
    (runLRU c references.length references).hit ≤
      (runLRU (c + 1) references.length references).hit ∧
    (∀ k, k ≤ references.length →
      (runLRU (c + 1) k references).arr_items.take c = (runLRU c k references).arr_items ∧
      (runLRU c k references).hit ≤ (runLRU (c + 1) k references).hit) := by
  have hmain : ∀ k, k ≤ references.length →
      (runLRU (c + 1) k references).arr_items.take c = (runLRU c k references).arr_items ∧
      (runLRU c k references).hit ≤ (runLRU (c + 1) k references).hit := by
    intro k hk
    have h1 := lruRel_run c k hc lruGlobals references hk hr
    have h2 := lruRel_run (c + 1) k (by omega) lruGlobals references hk hr
    change LruRel c (runLRU c k references) _ at h1
    change LruRel (c + 1) (runLRU (c + 1) k references) _ at h2
    constructor
    · rw [h1.2.2.2, h2.2.2.2, lruModel_list c hc, lruModel_list (c + 1) (by omega)]
      exact padded_take_succ _ c
    · rw [h1.1, h2.1]
      exact lruModel_hits_mono c hc _
  exact ⟨(hmain references.length (le_refl _)).2, hmain⟩

set_option maxRecDepth 100000 in
/-- Witness for C19: the sample stream with four and five cache blocks. -/
theorem C19_lru_inclusion_witness :
    1 ≤ 4 ∧ (∀ r ∈ sampleRefs, (0 : Int) ≤ r) ∧
    (runLRU 4 sampleRefs.length sampleRefs).hit ≤
      (runLRU (4 + 1) sampleRefs.length sampleRefs).hit ∧
    (∀ k, k ≤ sampleRefs.length →
      (runLRU (4 + 1) k sampleRefs).arr_items.take 4 = (runLRU 4 k sampleRefs).arr_items ∧
      (runLRU 4 k sampleRefs).hit ≤ (runLRU (4 + 1) k sampleRefs).hit) :=
  ⟨by decide, by decide, C19_lru_inclusion 4 sampleRefs (by decide) (by decide)⟩

end CacheAlgo
